import Mathlib

/-!
# Verification of the Paper_Crawler core (src/arXiv/process.py)

This file embeds the merge/dedup/render core of the crawler:

* `load_markdown` (process.py lines 56-75): the record parser, a Python
  `re.findall` over a fixed pattern.  It is embedded by a faithful
  backtracking regular-expression engine (`matchSeq`/`findAll`) specialised
  to the exact pattern compiled on line 60 (`thePat`).
* the per-subject crawler pass (lines 131-246): category filter, seen-set
  dedup, per-year bucketing (`acceptStep`/`processResults`), per-year merge
  with the existing document (`mergeYear`, lines 202-211), document
  rendering (`renderYear`, lines 213-238) and the conditional seen-set
  persist (lines 242-246), assembled in `subjectPass`.
* `load_set` (lines 40-53): the seen-set store, with the file system
  modelled by the two observable inputs (directory exists / db file
  contents) and the directory-creation effect recorded in the result.

Strings are modelled as `List Char`.  Python `time.struct_time` values are
modelled by their six calendar fields (`Tm`); Python compares such values as
tuples, and the derived fields `tm_wday`/`tm_yday` are functions of the date
for every value arising in this program, so the six-field lexicographic
comparison `lexLtB` is the comparison the program performs.  `db.txt` holds a
JSON array of strings and is modelled by its value, a list of identifiers.
Python's `sorted` is a stable ascending sort and is therefore extensionally
equal to `List.insertionSort` with the corresponding total preorder.
-/

set_option maxRecDepth 100000
set_option synthInstance.maxSize 512

abbrev Str := List Char

/-- Python's sequence comparison (used for `str` and for tuples such as
`time.struct_time`): compare the heads, on equality continue with the tails,
and a proper prefix is smaller. -/
def lexLtB {α : Type} [LinearOrder α] : List α → List α → Bool
  | _, [] => false
  | [], _ :: _ => true
  | a :: as, b :: bs => if a = b then lexLtB as bs else decide (a < b)

/-- A `time.struct_time` value, by its six calendar fields
(`tm_year, tm_mon, tm_mday, tm_hour, tm_min, tm_sec`). -/
structure Tm where
  tm_year : Nat
  tm_mon : Nat
  tm_mday : Nat
  tm_hour : Nat
  tm_min : Nat
  tm_sec : Nat
deriving DecidableEq, Repr, Inhabited

/-- The tuple Python compares when comparing two `struct_time` values. -/
def tmKey (t : Tm) : List Nat :=
  [t.tm_year, t.tm_mon, t.tm_mday, t.tm_hour, t.tm_min, t.tm_sec]

/-- The record dictionary built on lines 165-172 of process.py and parsed
back on lines 65-74. -/
structure PaperRecord where
  title : Str
  authors : List Str
  updated_sorted : Tm
  updated : Str
  summary : Str
  pdf_url : Str
  short_id : Str
deriving DecidableEq, Repr, Inhabited

/-- `sorted(results, key=lambda item: item['updated_sorted'])` (line 211)
orders records ascending by the `struct_time` key; `x ≤ y` iff not `y < x`. -/
def recLeP (x y : PaperRecord) : Prop :=
  lexLtB (tmKey y.updated_sorted) (tmKey x.updated_sorted) = false

instance : DecidableRel recLeP := fun x y =>
  inferInstanceAs (Decidable (_ = false))

/-- Python string comparison `s ≤ t` (code-point lexicographic). -/
def strLeP (a b : Str) : Prop := lexLtB b a = false

instance : DecidableRel strLeP := fun a b =>
  inferInstanceAs (Decidable (_ = false))

/-- The stable ascending sort on line 211. -/
def sortRecords (l : List PaperRecord) : List PaperRecord :=
  List.insertionSort recLeP l

/-- `toc = sorted(toc)` on line 230. -/
def sortStrs (l : List Str) : List Str :=
  List.insertionSort strLeP l

/-- Decimal digits of `n` (Python's `%d`-style rendering of a number). -/
def natDigits (n : Nat) : Str := Nat.toDigits 10 n

/-- Zero-padding to width `w`, as in `strftime`'s `%Y`/`%m`/... fields. -/
def padZ (w : Nat) (l : Str) : Str := List.replicate (w - l.length) '0' ++ l

/-- `time.strftime('%Y-%m-%d %H:%M:%S', t)` (line 169). -/
def fmtTime (t : Tm) : Str :=
  padZ 4 (natDigits t.tm_year) ++ "-".data ++ padZ 2 (natDigits t.tm_mon) ++
  "-".data ++ padZ 2 (natDigits t.tm_mday) ++ " ".data ++
  padZ 2 (natDigits t.tm_hour) ++ ":".data ++ padZ 2 (natDigits t.tm_min) ++
  ":".data ++ padZ 2 (natDigits t.tm_sec)

/-- `result.summary.replace('\n', ' ')` (line 170). -/
def replaceNL (s : Str) : Str := s.map (fun c => if c = '\n' then ' ' else c)

/-- `s.rsplit('-', 1)[0]` (line 219): everything before the last `'-'`, or
the whole string when there is no `'-'`. -/
def dropAfterLastDash (s : Str) : Str :=
  match s.reverse.dropWhile (fun c => c ≠ '-') with
  | [] => s
  | _ :: rest => rest.reverse

/-- The year-month grouping key `ym` of a record (line 219). -/
def ymOf (r : PaperRecord) : Str := dropAfterLastDash r.updated

/-!
## The record parser `load_markdown` (lines 56-75)

The pattern compiled on line 60 is

`<summary>(\d{4}-\d{2}-\d{2} \d{2}:\d{2}:\d{2}) - (.*)</summary>\n\n- \*(.+)\*\n\n- `(.+)`.* \[pdf\]\((.+)\)\n\n> (.+)\n\n</details>`

and `prog.findall` returns the capture tuples of all non-overlapping
leftmost matches.  The engine below implements exactly Python's semantics
for this pattern class: literals, a fixed-width character-class group, and
greedy `.*` / `.+` (where `.` does not match a newline), with full
backtracking, and a left-to-right non-overlapping scan.
-/

/-- A single-character pattern: `\d` or a literal character. -/
inductive CPat
  | digit
  | exact (c : Char)
deriving DecidableEq, Repr

/-- Whether a character matches a single-character pattern.  (`\d` is
modelled as an ASCII digit; only digit characters occur in this archive.) -/
def cmatch : CPat → Char → Bool
  | .digit, c => c.isDigit
  | .exact e, c => c == e

/-- One element of the compiled pattern: a literal, the fixed-width
timestamp capture group, a greedy `(.*)` capture, a greedy `(.+)` capture,
or the single non-capturing greedy `.*`. -/
inductive PatItem
  | lit (l : Str)
  | fixedGrp (ps : List CPat)
  | star
  | plus
  | skipStar
deriving Repr

/-- List-of-characters starts-with test. -/
def strStarts : Str → Str → Bool
  | [], _ => true
  | _ :: _, [] => false
  | a :: as, b :: bs => a == b && strStarts as bs

/-- Match a fixed-width character-class sequence, returning the matched
characters and the rest. -/
def matchCPats : List CPat → Str → Option (Str × Str)
  | [], s => some ([], s)
  | _ :: _, [] => none
  | p :: ps, c :: s =>
    if cmatch p c then (matchCPats ps s).map (fun m => (c :: m.1, m.2)) else none

/-- `[hi, hi-1, ..., lo]` (empty when `hi < lo`): the candidate lengths a
greedy quantifier tries, longest first. -/
def descRange (lo hi : Nat) : List Nat :=
  (List.range (hi + 1 - lo)).map (fun i => hi - i)

/-- Greedy quantifier over `.` (which cannot match `'\n'`): try the longest
candidate first and backtrack through the continuation `cont`. -/
def pickGreedy (cont : Str → Option (List Str × Str)) (capture : Bool)
    (lo : Nat) (s : Str) : Option (List Str × Str) :=
  (descRange lo ((s.takeWhile (fun c => c ≠ '\n')).length)).findSome? (fun k =>
    (cont (s.drop k)).map (fun m =>
      (if capture then s.take k :: m.1 else m.1, m.2)))

/-- Match a pattern at the start of `s`, returning the list of captured
groups and the rest of the string after the match (backtracking, greedy). -/
def matchSeq : List PatItem → Str → Option (List Str × Str)
  | [], s => some ([], s)
  | .lit l :: ps, s =>
    if strStarts l s then matchSeq ps (s.drop l.length) else none
  | .fixedGrp cs :: ps, s =>
    match matchCPats cs s with
    | some m => (matchSeq ps m.2).map (fun r => (m.1 :: r.1, r.2))
    | none => none
  | .star :: ps, s => pickGreedy (fun t => matchSeq ps t) true 0 s
  | .plus :: ps, s => pickGreedy (fun t => matchSeq ps t) true 1 s
  | .skipStar :: ps, s => pickGreedy (fun t => matchSeq ps t) false 0 s

/-- The timestamp group `\d{4}-\d{2}-\d{2} \d{2}:\d{2}:\d{2}`. -/
def tsShape : List CPat :=
  [.digit, .digit, .digit, .digit, .exact '-', .digit, .digit, .exact '-',
   .digit, .digit, .exact ' ', .digit, .digit, .exact ':', .digit, .digit,
   .exact ':', .digit, .digit]

/-- The pattern compiled on line 60 of process.py, item by item. -/
def thePat : List PatItem :=
  [.lit "<summary>".data,
   .fixedGrp tsShape,
   .lit " - ".data,
   .star,
   .lit "</summary>\n\n- *".data,
   .plus,
   .lit "*\n\n- `".data,
   .plus,
   .lit "`".data,
   .skipStar,
   .lit " [pdf](".data,
   .plus,
   .lit ")\n\n> ".data,
   .plus,
   .lit "\n\n</details>".data]

/-- The left-to-right non-overlapping scan of `re.findall`: at each
position try a match; on success record the captures and continue after the
match (advancing at least one character), on failure advance one
character.  `fuel` dominates the number of scan steps; `findAll` supplies
enough fuel for the whole text. -/
def findAllFrom : Nat → Str → List (List Str)
  | 0, _ => []
  | fuel + 1, s =>
    match matchSeq thePat s with
    | some m =>
      if m.2.length < s.length then m.1 :: findAllFrom fuel m.2
      else
        match s with
        | [] => [m.1]
        | _ :: tail => m.1 :: findAllFrom fuel tail
    | none =>
      match s with
      | [] => []
      | _ :: tail => findAllFrom fuel tail

/-- `prog.findall(raw_markdown)` (line 61). -/
def findAll (s : Str) : List (List Str) := findAllFrom (s.length + 1) s

/-- Numeric value of a digit string (most significant first). -/
def natOfDigits (s : Str) : Nat := s.foldl (fun n c => n * 10 + (c.toNat - 48)) 0

/-- `time.strptime(ts, '%Y-%m-%d %H:%M:%S')` (line 69) on a string of the
shape guaranteed by the timestamp group: read the six numeric fields at
their fixed positions.  (The derived fields `strptime` additionally
computes are determined by these six and are not part of the model.) -/
def parseTm (s : Str) : Tm :=
  { tm_year := natOfDigits (s.take 4),
    tm_mon := natOfDigits ((s.drop 5).take 2),
    tm_mday := natOfDigits ((s.drop 8).take 2),
    tm_hour := natOfDigits ((s.drop 11).take 2),
    tm_min := natOfDigits ((s.drop 14).take 2),
    tm_sec := natOfDigits ((s.drop 17).take 2) }

/-- Helper for `splitCS`: `acc` holds the current token reversed. -/
def splitCSGo (acc : Str) : Str → List Str
  | [] => [acc.reverse]
  | [c] => [(c :: acc).reverse]
  | c :: c2 :: rest =>
    if c = ',' ∧ c2 = ' ' then acc.reverse :: splitCSGo [] rest
    else splitCSGo (c :: acc) (c2 :: rest)

/-- Python `s.split(', ')` (line 68): split at every non-overlapping
occurrence of the separator, scanning left to right. -/
def splitCS (s : Str) : List Str := splitCSGo [] s

/-- Build one parsed record from the six captured groups
(lines 66-74 of process.py). -/
def recOfMatch (m : List Str) : PaperRecord :=
  match m with
  | [ts, title1, auth, sid, pdf, summ] =>
    { title := title1, authors := splitCS auth, updated_sorted := parseTm ts,
      updated := ts, summary := summ, pdf_url := pdf, short_id := sid }
  | _ => default

/-- `load_markdown` (lines 56-75): parse a year document's raw text into
the list of records it contains. -/
def load_markdown (text : Str) : List PaperRecord :=
  (findAll text).map recOfMatch

/-!
## The crawler pass (lines 131-246)
-/

/-- A fetched search result, as consumed by the loop on lines 150-173:
`result.categories`, `result.get_short_id()`, `result.title`, the author
names, `result.updated` (a `struct_time`), `result.summary`,
`result.get_pdf_url()`. -/
structure FetchResult where
  categories : List Str
  short_id : Str
  title : Str
  authors : List Str
  updated : Tm
  summary : Str
  pdf_url : Str
deriving DecidableEq, Repr, Inhabited

/-- The category pre-filter on lines 152-156: keep the result iff some of
its categories is in the configured `subjectcategory` list. -/
def passesCategory (cats allowed : List Str) : Bool :=
  cats.any (fun c => allowed.contains c)

/-- The record dictionary `ori` built on lines 165-172. -/
def mkRecord (r : FetchResult) : PaperRecord :=
  { title := r.title, authors := r.authors, updated_sorted := r.updated,
    updated := fmtTime r.updated, summary := replaceNL r.summary,
    pdf_url := r.pdf_url, short_id := r.short_id }

/-- Append `v` to the bucket of key `k`, creating the bucket at the end on
first touch: the behaviour of `defaultdict(list)` under
`d[k].append(v)` with insertion-ordered keys. -/
def bucketPush {κ β : Type} [BEq κ] : List (κ × List β) → κ → β → List (κ × List β)
  | [], k, v => [(k, [v])]
  | (k', vs) :: t, k, v =>
    if k' == k then (k', vs ++ [v]) :: t else (k', vs) :: bucketPush t k v

/-- The contents of a bucket (empty when the key was never touched). -/
def bucketGet {κ β : Type} [BEq κ] (bs : List (κ × List β)) (k : κ) : List β :=
  match bs.find? (fun b => b.1 == k) with
  | some b => b.2
  | none => []

/-- One iteration of the fetch loop body (lines 151-173) on the state
`(db_set, query_results)`: drop the result unless a category matches; drop
it if its identifier is already in `db_set`; otherwise add the identifier
to `db_set` and append the record to the bucket of its update year. -/
def acceptStep (allowed : List Str) (st : List Str × List (Nat × List PaperRecord))
    (r : FetchResult) : List Str × List (Nat × List PaperRecord) :=
  if passesCategory r.categories allowed then
    if st.1.contains r.short_id then st
    else (st.1 ++ [r.short_id], bucketPush st.2 r.updated.tm_year (mkRecord r))
  else st

/-- The whole fetch-and-filter phase of a subject's pass: all keywords'
results in order, starting from the loaded seen set and empty buckets.
The seen set is modelled as a list used only through membership and
add-if-absent, i.e. as a set. -/
def processResults (allowed : List Str) (seen0 : List Str)
    (fetched : List FetchResult) : List Str × List (Nat × List PaperRecord) :=
  fetched.foldl (acceptStep allowed) (seen0, [])

/-- The per-year merge (lines 202-211): if a document for the year exists,
take its parsed records and append every new record whose identifier is not
among the parsed records' identifiers; then sort ascending by the
`updated_sorted` key (stable). -/
def mergeYear (oldDoc : Option (List PaperRecord)) (fresh : List PaperRecord) :
    List PaperRecord :=
  match oldDoc with
  | some old =>
    sortRecords (old ++ fresh.filter
      (fun it => !((old.map (fun r => r.short_id)).contains it.short_id)))
  | none => sortRecords fresh

/-- The TOC accumulation on lines 219-221: first-seen year-month keys. -/
def tocFold (results : List PaperRecord) : List Str :=
  results.foldl
    (fun acc r => if acc.contains (ymOf r) then acc else acc ++ [ymOf r]) []

/-- The `content` accumulation on lines 217-227, keeping the records (the
rendered paper text of each is `paperText`). -/
def contentFold (results : List PaperRecord) : List (Str × List PaperRecord) :=
  results.foldl (fun acc r => bucketPush acc (ymOf r) r) []

/-- The per-record template on lines 222-226. -/
def paperText (r : PaperRecord) : Str :=
  "<details>\n\n<summary>".data ++ r.updated ++ " - ".data ++ r.title ++
  "</summary>\n\n- *".data ++ List.intercalate ", ".data r.authors ++
  "*\n\n- `".data ++ r.short_id ++ "` - [abs](http://arxiv.org/abs/".data ++
  r.short_id ++ ") - [pdf](".data ++ r.pdf_url ++ ")\n\n> ".data ++
  r.summary ++ "\n\n</details>\n\n".data

/-- One TOC entry `- [{t}](#{t})` (line 231). -/
def tocLine (t : Str) : Str :=
  "- [".data ++ t ++ "](#".data ++ t ++ ")".data

/-- The document renderer (lines 213-238): header, TOC (sorted), then one
section per year-month bucket in first-seen order, all joined with a
newline and written as the whole file. -/
def renderYear (year : Nat) (results : List PaperRecord) : Str :=
  let toc := sortStrs (tocFold results)
  let content := contentFold results
  List.intercalate "\n".data
    (["# ".data ++ natDigits year ++ "\n".data,
      "## TOC\n".data,
      List.intercalate "\n".data (toc.map tocLine) ++ "\n".data] ++
     (content.map (fun sec =>
        ["## ".data ++ sec.1 ++ "\n".data, (sec.2.map paperText).flatten])).flatten)

/-- Result of `load_set` (lines 40-53): the loaded set and whether the
archive directory was created as a side effect. -/
structure LoadSetResult where
  dbSet : List Str
  dirCreated : Bool
deriving DecidableEq, Repr

/-- `load_set` (lines 40-53).  The file system is modelled by whether the
subject's archive directory exists and by the contents of `db.txt` (a JSON
array of identifiers, modelled by its value) when that file exists. -/
def load_set (dirExists : Bool) (dbFile : Option (List Str)) : LoadSetResult :=
  if !dirExists then { dbSet := [], dirCreated := true }
  else
    match dbFile with
    | none => { dbSet := [], dirCreated := false }
    | some l => { dbSet := l, dirCreated := false }

/-- Observable outcome of one subject's processing pass
(lines 131-246 for a single subject). -/
structure PassResult where
  dirCreated : Bool
  loadedSeen : List Str
  buckets : List (Nat × List PaperRecord)
  finalSeen : List Str
  writtenYears : List Nat
  mergedDocs : List (Nat × List PaperRecord)
  renderedDocs : List (Nat × Str)
  dbWritten : Bool
  persistedSeen : Option (List Str)
deriving Repr

/-- One subject's pass: load the seen set (lines 40-53, called on line
134), run the fetch loop over all keywords' results (lines 138-196),
then for each touched year merge with the existing document and rewrite it
(lines 202-240), and finally rewrite `db.txt` iff at least one year bucket
exists (lines 242-246).  `files y` is the raw text of the existing
`{y}.md`, if any. -/
def subjectPass (dirExists : Bool) (dbFile : Option (List Str))
    (files : Nat → Option Str) (allowed : List Str)
    (fetched : List FetchResult) : PassResult :=
  { dirCreated := (load_set dirExists dbFile).dirCreated,
    loadedSeen := (load_set dirExists dbFile).dbSet,
    buckets := (processResults allowed (load_set dirExists dbFile).dbSet fetched).2,
    finalSeen := (processResults allowed (load_set dirExists dbFile).dbSet fetched).1,
    writtenYears :=
      (processResults allowed (load_set dirExists dbFile).dbSet fetched).2.map
        (fun b => b.1),
    mergedDocs :=
      (processResults allowed (load_set dirExists dbFile).dbSet fetched).2.map
        (fun b => (b.1, mergeYear ((files b.1).map load_markdown) b.2)),
    renderedDocs :=
      ((processResults allowed (load_set dirExists dbFile).dbSet fetched).2.map
        (fun b => (b.1, mergeYear ((files b.1).map load_markdown) b.2))).map
        (fun b => (b.1, renderYear b.1 b.2)),
    dbWritten :=
      !(processResults allowed (load_set dirExists dbFile).dbSet fetched).2.isEmpty,
    persistedSeen :=
      if (processResults allowed (load_set dirExists dbFile).dbSet fetched).2.isEmpty
      then none
      else some (processResults allowed (load_set dirExists dbFile).dbSet fetched).1 }

/-!
## Auxiliary definitions for the round-trip analysis and concrete inputs
-/

/-- Whether `pat` occurs as a contiguous substring of the second argument. -/
def hasSub (pat : Str) : Str → Bool
  | [] => pat.isEmpty
  | c :: t => strStarts pat (c :: t) || hasSub pat t

/-- Whether a string is exactly of the timestamp group's shape
`\d{4}-\d{2}-\d{2} \d{2}:\d{2}:\d{2}` (19 characters). -/
def tsOKB (s : Str) : Bool :=
  match matchCPats tsShape s with
  | some m => m.2.isEmpty
  | none => false

/-- The field ranges `time.strptime` accepts for
`%m`, `%d`, `%H`, `%M`, `%S` (it raises on anything else). -/
def tsRangesB (s : Str) : Bool :=
  let t := parseTm s
  decide (1 ≤ t.tm_mon) && decide (t.tm_mon ≤ 12) &&
  decide (1 ≤ t.tm_mday) && decide (t.tm_mday ≤ 31) &&
  decide (t.tm_hour ≤ 23) && decide (t.tm_min ≤ 59) && decide (t.tm_sec ≤ 61)

/-- Well-formedness of a record's fields under which rendering a record
produces a block the parser recovers exactly: the timestamp string has the
shape and field ranges `strptime` accepts; title, author names, summary,
identifier and pdf link contain no newline (a newline would break the
block's line structure the pattern requires); the author list is non-empty
with non-empty names free of the join separator `", "` (otherwise
`split(', ')` does not invert the join); summary, identifier and pdf link
are non-empty (they are matched by `(.+)`); identifier and pdf link are
free of the backtick, and the pdf link is free of the substring
`" [pdf]("` the pattern keys on. -/
def renderableB (r : PaperRecord) : Bool :=
  tsOKB r.updated && tsRangesB r.updated &&
  !(r.title.contains '\n') &&
  !(r.authors.isEmpty) &&
  r.authors.all (fun a =>
    !(a.isEmpty) && !(a.contains '\n') && !(hasSub ", ".data a)) &&
  !(r.summary.isEmpty) && !(r.summary.contains '\n') &&
  !(r.short_id.isEmpty) && !(r.short_id.contains '\n') &&
  !(r.short_id.contains '`') &&
  !(r.pdf_url.isEmpty) && !(r.pdf_url.contains '\n') &&
  !(r.pdf_url.contains '`') && !(hasSub " [pdf](".data r.pdf_url)

/-- The six fields the round-trip property compares: identifier, title,
authors, update timestamp string, summary, pdf link. -/
def fields6 (r : PaperRecord) : Str × Str × List Str × Str × Str × Str :=
  (r.short_id, r.title, r.authors, r.updated, r.summary, r.pdf_url)

/-- `', '.join(authors)` (line 223). -/
def joinCS (as0 : List Str) : Str := List.intercalate ", ".data as0

/-- Index of the first occurrence of `c` in `s` (the length of `s` when
`c` does not occur). -/
def cIdx (c : Char) (s : Str) : Nat := (s.takeWhile (fun x => x ≠ c)).length

/-- The capture tuple the pattern produces on a rendered block. -/
def capsOf (r : PaperRecord) : List Str :=
  [r.updated, r.title, joinCS r.authors, r.short_id, r.pdf_url, r.summary]

/-- The part of a rendered paper block spanned by a match of the pattern:
from `<summary>` through `</details>`. -/
def blockCore (r : PaperRecord) : Str :=
  "<summary>".data ++ r.updated ++ " - ".data ++ r.title ++
  "</summary>\n\n- *".data ++ joinCS r.authors ++ "*\n\n- `".data ++
  r.short_id ++ "` - [abs](http://arxiv.org/abs/".data ++ r.short_id ++
  ") - [pdf](".data ++ r.pdf_url ++ ")\n\n> ".data ++ r.summary ++
  "\n\n</details>".data

/-- One rendered body section as it appears inside the joined document:
the separating newline, the section header, the separating newline, and
the concatenated paper blocks. -/
def sectionText (sec : Str × List PaperRecord) : Str :=
  "\n## ".data ++ sec.1 ++ "\n\n".data ++ (sec.2.map paperText).flatten

/-- The whole rendered body: the sections in bucket order. -/
def bodyText (secs : List (Str × List PaperRecord)) : Str :=
  (secs.map sectionText).flatten

/-- Everything the renderer emits before the first body section: header
and TOC. -/
def headText (year : Nat) (results : List PaperRecord) : Str :=
  "# ".data ++ natDigits year ++ "\n\n## TOC\n\n".data ++
  List.intercalate "\n".data ((sortStrs (tocFold results)).map tocLine) ++
  "\n".data

/-- `j` contains no position at which a match of the pattern could begin,
whatever text follows: no nonempty suffix of `j`, extended by any
continuation, starts with `<summary>`. -/
def noSumStart (j : Str) : Prop :=
  ∀ b : Str, b <:+ j → b ≠ [] → ∀ t, strStarts "<summary>".data (b ++ t) = false

/-- Concrete sample timestamps and records used as witnesses. -/
def tmW1 : Tm := ⟨2024, 3, 1, 10, 0, 0⟩

def tmW2 : Tm := ⟨2024, 1, 15, 9, 30, 5⟩

def recW1 : PaperRecord :=
  { title := "A Title".data, authors := ["Ann B".data, "Carl D".data],
    updated_sorted := tmW1, updated := fmtTime tmW1,
    summary := "Some summary.".data,
    pdf_url := "http://arxiv.org/pdf/2403.00001".data,
    short_id := "2403.00001".data }

def recW2 : PaperRecord :=
  { title := "Other".data, authors := ["Zed".data],
    updated_sorted := tmW2, updated := fmtTime tmW2,
    summary := "S2".data, pdf_url := "http://arxiv.org/pdf/2401.00002".data,
    short_id := "2401.00002".data }

/-- A record whose summary is empty: the parser's `(.+)` group cannot match
an empty summary line, so the rendered block does not parse back. -/
def recBad : PaperRecord :=
  { title := "T".data, authors := ["A".data],
    updated_sorted := tmW1, updated := fmtTime tmW1,
    summary := [], pdf_url := "http://x/p".data, short_id := "2403.1".data }

/-- Records whose `updated` strings descend while the sort key ties:
fed to the renderer they exhibit body sections out of the TOC's order. -/
def recInc1 : PaperRecord :=
  { title := "T1".data, authors := ["A".data],
    updated_sorted := tmW1, updated := "2024-03-01 10:00:00".data,
    summary := "S".data, pdf_url := "P".data, short_id := "i1".data }

def recInc2 : PaperRecord :=
  { title := "T2".data, authors := ["A".data],
    updated_sorted := tmW1, updated := "2024-01-01 10:00:00".data,
    summary := "S".data, pdf_url := "P".data, short_id := "i2".data }

/-- A concrete file-system state: every year maps to a one-record
document. -/
def filesW : Nat → Option Str := fun _ => some (renderYear 2024 [recW2])

/-- A fetched result in the allowed category `cs.AI`. -/
def fetchW1 : FetchResult :=
  { categories := ["cs.AI".data], short_id := "2403.00001".data,
    title := "A Title".data, authors := ["Ann B".data, "Carl D".data],
    updated := tmW1, summary := "Some summary.".data,
    pdf_url := "http://arxiv.org/pdf/2403.00001".data }

/-- A fetched result whose only category is outside the allowed set
`["cs.AI"]`. -/
def fetchCex : FetchResult :=
  { categories := ["math.CO".data], short_id := "2403.99999".data,
    title := "T".data, authors := ["A".data], updated := tmW1,
    summary := "S".data, pdf_url := "P".data }

/-!
## Order lemmas
-/

theorem lexLtB_irrefl {α : Type} [LinearOrder α] (a : List α) : lexLtB a a = false := by
  induction a with
  | nil => rfl
  | cons x xs ih => simp [lexLtB, ih]

theorem lexLtB_asymm {α : Type} [LinearOrder α] {a b : List α}
    (h : lexLtB a b = true) : lexLtB b a = false := by
  induction a generalizing b with
  | nil =>
    cases b with
    | nil => simp [lexLtB] at h
    | cons y ys => simp [lexLtB]
  | cons x xs ih =>
    cases b with
    | nil => simp [lexLtB] at h
    | cons y ys =>
      by_cases hxy : x = y
      · subst hxy
        simp only [lexLtB, if_pos rfl] at h ⊢
        exact ih h
      · simp only [lexLtB, if_neg hxy, decide_eq_true_eq] at h
        simp only [lexLtB, if_neg (Ne.symm hxy), decide_eq_false_iff_not]
        exact not_lt_of_lt h

theorem lexLtB_eq_of_not {α : Type} [LinearOrder α] {a b : List α}
    (hab : lexLtB a b = false) (hba : lexLtB b a = false) : a = b := by
  induction a generalizing b with
  | nil =>
    cases b with
    | nil => rfl
    | cons y ys => simp [lexLtB] at hab
  | cons x xs ih =>
    cases b with
    | nil => simp [lexLtB] at hba
    | cons y ys =>
      by_cases hxy : x = y
      · subst hxy
        simp only [lexLtB, if_pos rfl] at hab hba
        exact congrArg (x :: ·) (ih hab hba)
      · simp only [lexLtB, if_neg hxy, decide_eq_false_iff_not] at hab
        simp only [lexLtB, if_neg (Ne.symm hxy), decide_eq_false_iff_not] at hba
        exact absurd (lt_of_le_of_ne (le_of_not_lt hba) hxy) hab

theorem lexLtB_trans {α : Type} [LinearOrder α] {a b c : List α}
    (hab : lexLtB a b = true) (hbc : lexLtB b c = true) : lexLtB a c = true := by
  induction a generalizing b c with
  | nil =>
    cases c with
    | nil =>
      cases b with
      | nil => exact hab
      | cons y ys => simp [lexLtB] at hbc
    | cons z zs => simp [lexLtB]
  | cons x xs ih =>
    cases b with
    | nil => simp [lexLtB] at hab
    | cons y ys =>
      cases c with
      | nil => simp [lexLtB] at hbc
      | cons z zs =>
        by_cases hxy : x = y
        · subst hxy
          simp only [lexLtB, if_pos rfl] at hab
          by_cases hyz : x = z
          · subst hyz
            simp only [lexLtB, if_pos rfl] at hbc ⊢
            exact ih hab hbc
          · simp only [lexLtB, if_neg hyz] at hbc ⊢
            exact hbc
        · simp only [lexLtB, if_neg hxy, decide_eq_true_eq] at hab
          by_cases hyz : y = z
          · subst hyz
            simp only [lexLtB, if_neg hxy, decide_eq_true_eq]
            exact hab
          · simp only [lexLtB, if_neg hyz, decide_eq_true_eq] at hbc
            have hxz : x < z := lt_trans hab hbc
            simp only [lexLtB, if_neg (ne_of_lt hxz), decide_eq_true_eq]
            exact hxz

theorem lexLtB_le_trans {α : Type} [LinearOrder α] {a b c : List α}
    (hab : lexLtB b a = false) (hbc : lexLtB c b = false) : lexLtB c a = false := by
  cases hca : lexLtB c a with
  | false => rfl
  | true =>
    exfalso
    cases hcb : lexLtB b c with
    | false =>
      have hbceq : b = c := lexLtB_eq_of_not hcb hbc
      subst hbceq
      exact absurd hca (by simp [hab])
    | true =>
      cases hba : lexLtB a b with
      | false =>
        have habeq : a = b := lexLtB_eq_of_not hba hab
        subst habeq
        exact absurd hca (by simp [hbc])
      | true => exact absurd (lexLtB_trans hca hba) (by simp [hbc])

instance : IsTotal PaperRecord recLeP := by
  constructor
  intro a b
  unfold recLeP
  cases h : lexLtB (tmKey b.updated_sorted) (tmKey a.updated_sorted) with
  | false => exact Or.inl rfl
  | true => exact Or.inr (lexLtB_asymm h)

instance : IsTrans PaperRecord recLeP := by
  constructor
  intro a b c hab hbc
  unfold recLeP at hab hbc ⊢
  exact lexLtB_le_trans hab hbc

instance : IsTotal Str strLeP := by
  constructor
  intro a b
  unfold strLeP
  cases h : lexLtB b a with
  | false => exact Or.inl rfl
  | true => exact Or.inr (lexLtB_asymm h)

instance : IsTrans Str strLeP := by
  constructor
  intro a b c hab hbc
  unfold strLeP at hab hbc ⊢
  exact lexLtB_le_trans hab hbc

/-!
## Sorting lemmas
-/

theorem sortRecords_perm (l : List PaperRecord) : List.Perm (sortRecords l) l :=
  List.perm_insertionSort recLeP l

theorem sortRecords_sorted (l : List PaperRecord) :
    (sortRecords l).Sorted recLeP :=
  List.sorted_insertionSort recLeP l

theorem sortStrs_perm (l : List Str) : List.Perm (sortStrs l) l :=
  List.perm_insertionSort strLeP l

theorem sortStrs_sorted (l : List Str) : (sortStrs l).Sorted strLeP :=
  List.sorted_insertionSort strLeP l

/-- Stability of the record sort, expressed on the classes the key does not
separate: the records with any fixed timestamp key come out in exactly the
order they went in. -/
theorem sortRecords_filter_key (l : List PaperRecord) (t : Tm) :
    (sortRecords l).filter (fun r => r.updated_sorted == t) =
      l.filter (fun r => r.updated_sorted == t) := by
  set p : PaperRecord → Bool := fun r => r.updated_sorted == t with hp
  have hpair : (l.filter p).Pairwise recLeP := by
    apply List.pairwise_of_forall_mem_list
    intro a ha b hb
    have ha' : a.updated_sorted = t := by
      have := (List.mem_filter.mp ha).2
      simpa [hp] using this
    have hb' : b.updated_sorted = t := by
      have := (List.mem_filter.mp hb).2
      simpa [hp] using this
    unfold recLeP
    rw [ha', hb']
    exact lexLtB_irrefl _
  have hsub : (l.filter p).Sublist (sortRecords l) :=
    List.sublist_insertionSort hpair (List.filter_sublist l)
  have hself : (l.filter p).filter p = l.filter p :=
    List.filter_eq_self.mpr (fun a ha => (List.mem_filter.mp ha).2)
  have hsub2 : (l.filter p).Sublist ((sortRecords l).filter p) := by
    have := List.Sublist.filter p hsub
    rwa [hself] at this
  have hperm : List.Perm ((sortRecords l).filter p) (l.filter p) :=
    (sortRecords_perm l).filter p
  exact (List.Sublist.eq_of_length hsub2 hperm.length_eq.symm).symm

/-!
## Bucket (`defaultdict(list)`) lemmas
-/

/-- All values stored in a bucket map, in bucket order. -/
def bucketVals {κ β : Type} (bs : List (κ × List β)) : List β :=
  (bs.map Prod.snd).flatten

theorem bucketPush_ne_nil {κ β : Type} [BEq κ] (bs : List (κ × List β))
    (k : κ) (v : β) : bucketPush bs k v ≠ [] := by
  cases bs with
  | nil => simp [bucketPush]
  | cons e t =>
    obtain ⟨k', vs⟩ := e
    cases h : (k' == k) with
    | true => simp [bucketPush, h]
    | false => simp [bucketPush, h]

theorem bucketVals_push {κ β : Type} [BEq κ] (bs : List (κ × List β))
    (k : κ) (v : β) :
    List.Perm (bucketVals (bucketPush bs k v)) (bucketVals bs ++ [v]) := by
  induction bs with
  | nil => simp [bucketPush, bucketVals]
  | cons e t ih =>
    obtain ⟨k', vs⟩ := e
    cases h : (k' == k) with
    | true =>
      simp only [bucketPush, h, if_true, bucketVals, List.map_cons,
        List.flatten_cons]
      have hbase : List.Perm ([v] ++ (t.map Prod.snd).flatten)
          ((t.map Prod.snd).flatten ++ [v]) := List.perm_append_comm
      simpa [List.append_assoc] using List.Perm.append_left vs hbase
    | false =>
      simp only [bucketPush, h, Bool.false_eq_true, if_false, bucketVals,
        List.map_cons, List.flatten_cons]
      have := List.Perm.append_left vs ih
      simpa [bucketVals, List.append_assoc] using this

theorem bucketPush_keys_mem {κ β : Type} [BEq κ] [LawfulBEq κ]
    {bs : List (κ × List β)} {k : κ} (v : β) (h : k ∈ bs.map Prod.fst) :
    (bucketPush bs k v).map Prod.fst = bs.map Prod.fst := by
  induction bs with
  | nil => simp at h
  | cons e t ih =>
    obtain ⟨k', vs⟩ := e
    cases hk : (k' == k) with
    | true => simp [bucketPush, hk]
    | false =>
      simp only [bucketPush, hk, Bool.false_eq_true, if_false, List.map_cons]
      have hk' : k' ≠ k := by
        intro hc; subst hc; simp at hk
      have ht : k ∈ t.map Prod.fst := by
        simp only [List.map_cons, List.mem_cons] at h
        rcases h with hc | hc
        · exact absurd hc (Ne.symm hk')
        · exact hc
      rw [ih ht]

theorem bucketPush_keys_new {κ β : Type} [BEq κ] [LawfulBEq κ]
    {bs : List (κ × List β)} {k : κ} (v : β) (h : k ∉ bs.map Prod.fst) :
    (bucketPush bs k v).map Prod.fst = bs.map Prod.fst ++ [k] := by
  induction bs with
  | nil => simp [bucketPush]
  | cons e t ih =>
    obtain ⟨k', vs⟩ := e
    cases hk : (k' == k) with
    | true =>
      exfalso
      apply h
      simp only [List.map_cons, List.mem_cons]
      exact Or.inl (beq_iff_eq.mp hk).symm
    | false =>
      simp only [bucketPush, hk, Bool.false_eq_true, if_false, List.map_cons]
      have ht : k ∉ t.map Prod.fst := fun hc => h (by simp [hc])
      rw [ih ht]
      simp

theorem bucketPush_entries_ne {κ β : Type} [BEq κ]
    {bs : List (κ × List β)} {k : κ} {v : β}
    (h : ∀ e ∈ bs, e.2 ≠ []) :
    ∀ e ∈ bucketPush bs k v, e.2 ≠ [] := by
  induction bs with
  | nil =>
    intro e he
    simp only [bucketPush, List.mem_singleton] at he
    subst he
    simp
  | cons e0 t ih =>
    obtain ⟨k', vs⟩ := e0
    cases hk : (k' == k) with
    | true =>
      intro e he
      simp only [bucketPush, hk, if_true, List.mem_cons] at he
      rcases he with he | he
      · subst he; simp
      · exact h e (List.mem_cons_of_mem _ he)
    | false =>
      intro e he
      simp only [bucketPush, hk, Bool.false_eq_true, if_false,
        List.mem_cons] at he
      rcases he with he | he
      · subst he
        exact h _ (List.mem_cons_self _ _)
      · exact ih (fun e' he' => h e' (List.mem_cons_of_mem _ he')) e he

theorem bucketGet_of_mem {κ β : Type} [BEq κ] [LawfulBEq κ]
    {bs : List (κ × List β)} {k : κ} {vs : List β}
    (hnd : (bs.map Prod.fst).Nodup) (h : (k, vs) ∈ bs) :
    bucketGet bs k = vs := by
  induction bs with
  | nil => simp at h
  | cons e t ih =>
    obtain ⟨k', vs'⟩ := e
    rcases List.mem_cons.mp h with he | he
    · have h1 : k' = k := congrArg Prod.fst he.symm
      have h2 : vs' = vs := congrArg Prod.snd he.symm
      subst h1
      subst h2
      simp [bucketGet, List.find?]
    · have hk' : k' ≠ k := by
        intro hc
        subst hc
        have hmem : k' ∈ t.map Prod.fst :=
          List.mem_map.mpr ⟨(k', vs), he, rfl⟩
        exact (List.nodup_cons.mp hnd).1 hmem
      have hkf : (k' == k) = false := by
        simpa using hk'
      simp only [bucketGet, List.find?, hkf]
      exact ih (List.nodup_cons.mp hnd).2 he

/-!
## Fetch-loop (`processResults`) invariants
-/

/-- The identifiers of all bucketed records. -/
def bucketIds (bs : List (Nat × List PaperRecord)) : List Str :=
  (bucketVals bs).map (fun r => r.short_id)

theorem acceptStep_cases (allowed : List Str)
    (st : List Str × List (Nat × List PaperRecord)) (r : FetchResult) :
    (acceptStep allowed st r = st ∧
      (passesCategory r.categories allowed = false ∨ r.short_id ∈ st.1)) ∨
    (acceptStep allowed st r =
        (st.1 ++ [r.short_id], bucketPush st.2 r.updated.tm_year (mkRecord r)) ∧
      passesCategory r.categories allowed = true ∧ r.short_id ∉ st.1) := by
  by_cases hp : passesCategory r.categories allowed = true
  · by_cases hc : st.1.contains r.short_id = true
    · have hm : r.short_id ∈ st.1 := List.elem_iff.mp hc
      exact Or.inl ⟨by simp [acceptStep, hp, hm], Or.inr hm⟩
    · have hm : r.short_id ∉ st.1 := fun hx => hc (List.elem_iff.mpr hx)
      exact Or.inr ⟨by simp [acceptStep, hp, hm], hp, hm⟩
  · have hp' : passesCategory r.categories allowed = false := by
      simpa using hp
    exact Or.inl ⟨by simp [acceptStep, hp'], Or.inl hp'⟩

theorem foldl_accept_seen_mem (allowed : List Str) (fetched : List FetchResult)
    (st : List Str × List (Nat × List PaperRecord)) (x : Str) :
    x ∈ (List.foldl (acceptStep allowed) st fetched).1 ↔
      x ∈ st.1 ∨ ∃ r ∈ fetched,
        passesCategory r.categories allowed = true ∧ r.short_id = x := by
  induction fetched generalizing st with
  | nil => simp
  | cons r rest ih =>
    rw [List.foldl_cons, ih]
    rcases acceptStep_cases allowed st r with ⟨heq, hskip⟩ | ⟨heq, hp, hnew⟩
    · rw [heq]
      constructor
      · rintro (hx | hx)
        · exact Or.inl hx
        · exact Or.inr (by
            obtain ⟨r', hr', h1, h2⟩ := hx
            exact ⟨r', List.mem_cons_of_mem _ hr', h1, h2⟩)
      · rintro (hx | ⟨r', hr', h1, h2⟩)
        · exact Or.inl hx
        · rcases List.mem_cons.mp hr' with hr'' | hr''
          · subst hr''
            rcases hskip with hskip | hskip
            · rw [h1] at hskip; cases hskip
            · exact Or.inl (h2 ▸ hskip)
          · exact Or.inr ⟨r', hr'', h1, h2⟩
    · rw [heq]
      simp only [List.mem_append, List.mem_singleton]
      constructor
      · rintro ((hx | hx) | hx)
        · exact Or.inl hx
        · exact Or.inr ⟨r, List.mem_cons_self _ _, hp, hx.symm⟩
        · obtain ⟨r', hr', h1, h2⟩ := hx
          exact Or.inr ⟨r', List.mem_cons_of_mem _ hr', h1, h2⟩
      · rintro (hx | ⟨r', hr', h1, h2⟩)
        · exact Or.inl (Or.inl hx)
        · rcases List.mem_cons.mp hr' with hr'' | hr''
          · subst hr''
            exact Or.inl (Or.inr h2.symm)
          · exact Or.inr ⟨r', hr'', h1, h2⟩

theorem foldl_accept_no_op (allowed : List Str) (fetched : List FetchResult)
    (st : List Str × List (Nat × List PaperRecord))
    (h : ∀ r ∈ fetched,
      passesCategory r.categories allowed = true → r.short_id ∈ st.1) :
    List.foldl (acceptStep allowed) st fetched = st := by
  induction fetched with
  | nil => rfl
  | cons r rest ih =>
    have hstep : acceptStep allowed st r = st := by
      rcases acceptStep_cases allowed st r with ⟨heq, _⟩ | ⟨_, hp, hnew⟩
      · exact heq
      · exact absurd (h r (List.mem_cons_self _ _) hp) hnew
    rw [List.foldl_cons, hstep]
    exact ih (fun r' hr' => h r' (List.mem_cons_of_mem _ hr'))

theorem foldl_accept_ids_inv (allowed : List Str) (fetched : List FetchResult)
    (st : List Str × List (Nat × List PaperRecord))
    (h1 : (bucketIds st.2).Nodup)
    (h2 : ∀ i ∈ bucketIds st.2, i ∈ st.1) :
    (bucketIds (List.foldl (acceptStep allowed) st fetched).2).Nodup ∧
      ∀ i ∈ bucketIds (List.foldl (acceptStep allowed) st fetched).2,
        i ∈ (List.foldl (acceptStep allowed) st fetched).1 := by
  induction fetched generalizing st with
  | nil => exact ⟨h1, h2⟩
  | cons r rest ih =>
    rw [List.foldl_cons]
    rcases acceptStep_cases allowed st r with ⟨heq, _⟩ | ⟨heq, _, hnew⟩
    · rw [heq]; exact ih st h1 h2
    · rw [heq]
      have hperm : List.Perm
          (bucketIds (bucketPush st.2 r.updated.tm_year (mkRecord r)))
          (bucketIds st.2 ++ [r.short_id]) := by
        have := (bucketVals_push st.2 r.updated.tm_year (mkRecord r)).map
          (fun rec => rec.short_id)
        simpa [bucketIds, mkRecord] using this
      apply ih
      · rw [hperm.nodup_iff]
        rw [List.nodup_append]
        refine ⟨h1, List.nodup_singleton _, ?_⟩
        intro i hi hii
        rcases List.mem_singleton.mp hii with rfl
        exact hnew (h2 _ hi)
      · intro i hi
        have hi' : i ∈ bucketIds st.2 ++ [r.short_id] := hperm.mem_iff.mp hi
        rcases List.mem_append.mp hi' with hi'' | hi''
        · exact List.mem_append.mpr (Or.inl (h2 _ hi''))
        · rcases List.mem_singleton.mp hi'' with rfl
          exact List.mem_append.mpr (Or.inr (List.mem_singleton.mpr rfl))

theorem foldl_accept_buckets_grow (allowed : List Str)
    (fetched : List FetchResult)
    (st : List Str × List (Nat × List PaperRecord)) (h : st.2 ≠ []) :
    (List.foldl (acceptStep allowed) st fetched).2 ≠ [] := by
  induction fetched generalizing st with
  | nil => exact h
  | cons r rest ih =>
    rw [List.foldl_cons]
    rcases acceptStep_cases allowed st r with ⟨heq, _⟩ | ⟨heq, _, _⟩
    · rw [heq]; exact ih st h
    · rw [heq]
      exact ih _ (bucketPush_ne_nil _ _ _)

theorem foldl_accept_empty_buckets (allowed : List Str)
    (fetched : List FetchResult) (seen0 : List Str)
    (h : (List.foldl (acceptStep allowed) (seen0, ([] : List (Nat × List PaperRecord))) fetched).2 = []) :
    (List.foldl (acceptStep allowed) (seen0, ([] : List (Nat × List PaperRecord))) fetched).1 = seen0 ∧
      ∀ r ∈ fetched,
        passesCategory r.categories allowed = true → r.short_id ∈ seen0 := by
  induction fetched with
  | nil => exact ⟨rfl, by simp⟩
  | cons r rest ih =>
    rcases acceptStep_cases allowed (seen0, []) r with ⟨heq, hskip⟩ | ⟨heq, _, _⟩
    · rw [List.foldl_cons, heq] at h ⊢
      obtain ⟨ha, hb⟩ := ih h
      refine ⟨ha, ?_⟩
      intro r' hr' hp'
      rcases List.mem_cons.mp hr' with rfl | hr''
      · rcases hskip with hskip | hskip
        · rw [hp'] at hskip; cases hskip
        · exact hskip
      · exact hb r' hr'' hp'
    · exfalso
      rw [List.foldl_cons, heq] at h
      exact foldl_accept_buckets_grow allowed rest _
        (by simp [bucketPush_ne_nil]) h

theorem foldl_accept_entries_ne (allowed : List Str)
    (fetched : List FetchResult)
    (st : List Str × List (Nat × List PaperRecord))
    (h : ∀ e ∈ st.2, e.2 ≠ []) :
    ∀ e ∈ (List.foldl (acceptStep allowed) st fetched).2, e.2 ≠ [] := by
  induction fetched generalizing st with
  | nil => exact h
  | cons r rest ih =>
    rw [List.foldl_cons]
    rcases acceptStep_cases allowed st r with ⟨heq, _⟩ | ⟨heq, _, _⟩
    · rw [heq]; exact ih st h
    · rw [heq]
      exact ih _ (bucketPush_entries_ne h)

theorem foldl_accept_erase (allowed : List Str) (r : FetchResult)
    (xs ys : List FetchResult)
    (st : List Str × List (Nat × List PaperRecord))
    (hr : passesCategory r.categories allowed = false) :
    List.foldl (acceptStep allowed) st (xs ++ r :: ys) =
      List.foldl (acceptStep allowed) st (xs ++ ys) := by
  rw [List.foldl_append, List.foldl_append, List.foldl_cons]
  have : acceptStep allowed (List.foldl (acceptStep allowed) st xs) r =
      List.foldl (acceptStep allowed) st xs := by
    simp [acceptStep, hr]
  rw [this]

theorem bucket_ids_sublist (bs : List (Nat × List PaperRecord))
    {y : Nat} {recs : List PaperRecord} (h : (y, recs) ∈ bs) :
    List.Sublist (recs.map (fun r => r.short_id)) (bucketIds bs) := by
  have hv : recs ∈ bs.map Prod.snd := List.mem_map.mpr ⟨(y, recs), h, rfl⟩
  have hs : List.Sublist recs (bucketVals bs) :=
    List.sublist_flatten_of_mem hv
  exact hs.map (fun r => r.short_id)

/-!
## Merge lemmas (`mergeYear`, lines 202-211)
-/

/-- The new records that survive the in-document dedup on lines 206-209. -/
def freshKept (old fresh : List PaperRecord) : List PaperRecord :=
  fresh.filter
    (fun it => !((old.map (fun r => r.short_id)).contains it.short_id))

theorem mergeYear_some_perm (old fresh : List PaperRecord) :
    List.Perm (mergeYear (some old) fresh) (old ++ freshKept old fresh) :=
  sortRecords_perm _

theorem mergeYear_none_perm (fresh : List PaperRecord) :
    List.Perm (mergeYear none fresh) fresh :=
  sortRecords_perm _

theorem mem_freshKept {old fresh : List PaperRecord} {r : PaperRecord} :
    r ∈ freshKept old fresh ↔
      r ∈ fresh ∧ r.short_id ∉ old.map (fun x => x.short_id) := by
  unfold freshKept
  rw [List.mem_filter]
  constructor
  · rintro ⟨h1, h2⟩
    refine ⟨h1, ?_⟩
    intro hm
    rw [Bool.not_eq_eq_eq_not] at h2
    exact absurd (List.elem_iff.mpr hm) (by simpa using h2)
  · rintro ⟨h1, h2⟩
    refine ⟨h1, ?_⟩
    have hcf : ((old.map (fun x => x.short_id)).contains r.short_id) = false := by
      cases hc : ((old.map (fun x => x.short_id)).contains r.short_id) with
      | false => rfl
      | true => exact absurd (List.elem_iff.mp hc) h2
    rw [hcf]
    rfl

theorem mem_mergeYear_some {old fresh : List PaperRecord} {r : PaperRecord} :
    r ∈ mergeYear (some old) fresh ↔
      r ∈ old ∨ (r ∈ fresh ∧ r.short_id ∉ old.map (fun x => x.short_id)) := by
  rw [(mergeYear_some_perm old fresh).mem_iff, List.mem_append, mem_freshKept]

theorem mergeYear_some_nodup {old fresh : List PaperRecord}
    (hold : (old.map (fun r => r.short_id)).Nodup)
    (hfresh : (fresh.map (fun r => r.short_id)).Nodup) :
    ((mergeYear (some old) fresh).map (fun r => r.short_id)).Nodup := by
  have hperm := (mergeYear_some_perm old fresh).map (fun r => r.short_id)
  rw [hperm.nodup_iff, List.map_append, List.nodup_append]
  refine ⟨hold, ?_, ?_⟩
  · exact List.Nodup.sublist
      ((List.filter_sublist fresh).map (fun r => r.short_id)) hfresh
  · intro i hi hi2
    obtain ⟨r, hr, hrid⟩ := List.mem_map.mp hi2
    rw [mem_freshKept] at hr
    exact hr.2 (hrid ▸ hi)

theorem mergeYear_none_nodup {fresh : List PaperRecord}
    (hfresh : (fresh.map (fun r => r.short_id)).Nodup) :
    ((mergeYear none fresh).map (fun r => r.short_id)).Nodup := by
  have hperm := (mergeYear_none_perm fresh).map (fun r => r.short_id)
  rw [hperm.nodup_iff]
  exact hfresh

theorem mergeYear_sorted (oldDoc : Option (List PaperRecord))
    (fresh : List PaperRecord) :
    (mergeYear oldDoc fresh).Sorted recLeP := by
  cases oldDoc with
  | none => exact sortRecords_sorted _
  | some old => exact sortRecords_sorted _

theorem mergeYear_erase_present {old : List PaperRecord}
    (xs ys : List PaperRecord) {rcd : PaperRecord}
    (h : rcd.short_id ∈ old.map (fun r => r.short_id)) :
    mergeYear (some old) (xs ++ rcd :: ys) = mergeYear (some old) (xs ++ ys) := by
  show sortRecords _ = sortRecords _
  congr 1
  have hc : ((old.map (fun r => r.short_id)).contains rcd.short_id) = true :=
    List.elem_iff.mpr h
  rw [List.filter_append, List.filter_append, List.filter_cons]
  simp only [hc, Bool.not_true, Bool.false_eq_true, if_false]

/-!
## Renderer lemmas (`tocFold`, `contentFold`, lines 216-235)
-/

theorem bucketGet_push_self {κ β : Type} [BEq κ] [LawfulBEq κ]
    (bs : List (κ × List β)) (k : κ) (v : β) :
    bucketGet (bucketPush bs k v) k = bucketGet bs k ++ [v] := by
  induction bs with
  | nil => simp [bucketPush, bucketGet, List.find?]
  | cons e t ih =>
    obtain ⟨k', vs⟩ := e
    cases hk : (k' == k) with
    | true =>
      simp [bucketPush, hk, bucketGet, List.find?]
    | false =>
      simp only [bucketPush, hk, Bool.false_eq_true, if_false]
      simp only [bucketGet, List.find?, hk]
      exact ih

theorem bucketGet_push_ne {κ β : Type} [BEq κ] [LawfulBEq κ]
    (bs : List (κ × List β)) {k k0 : κ} (v : β) (h : k0 ≠ k) :
    bucketGet (bucketPush bs k v) k0 = bucketGet bs k0 := by
  induction bs with
  | nil =>
    have hk : (k == k0) = false := by simpa using (Ne.symm h)
    simp [bucketPush, bucketGet, List.find?, hk]
  | cons e t ih =>
    obtain ⟨k', vs⟩ := e
    cases hk : (k' == k) with
    | true =>
      have hk0 : (k' == k0) = false := by
        have : k' = k := beq_iff_eq.mp hk
        subst this
        simpa using (Ne.symm h)
      simp [bucketPush, hk, bucketGet, List.find?, hk0]
    | false =>
      simp only [bucketPush, hk, Bool.false_eq_true, if_false]
      cases hk0 : (k' == k0) with
      | true => simp [bucketGet, List.find?, hk0]
      | false =>
        simp only [bucketGet, List.find?, hk0]
        exact ih

theorem foldl_bucket_get (rs : List PaperRecord)
    (acc : List (Str × List PaperRecord)) (k : Str) :
    bucketGet (List.foldl (fun a r => bucketPush a (ymOf r) r) acc rs) k =
      bucketGet acc k ++ rs.filter (fun r => ymOf r == k) := by
  induction rs generalizing acc with
  | nil => simp
  | cons r rest ih =>
    rw [List.foldl_cons, ih, List.filter_cons]
    by_cases hy : ymOf r = k
    · rw [hy, bucketGet_push_self]
      simp [hy, List.append_assoc]
    · have hyb : (ymOf r == k) = false := by simpa using hy
      rw [bucketGet_push_ne _ _ (Ne.symm hy)]
      simp [hyb]

theorem contentFold_get (rs : List PaperRecord) (k : Str) :
    bucketGet (contentFold rs) k = rs.filter (fun r => ymOf r == k) := by
  unfold contentFold
  rw [foldl_bucket_get]
  rfl

theorem foldl_keys_eq (rs : List PaperRecord)
    (accB : List (Str × List PaperRecord)) :
    (List.foldl (fun a r => bucketPush a (ymOf r) r) accB rs).map Prod.fst =
      List.foldl
        (fun acc r => if acc.contains (ymOf r) then acc else acc ++ [ymOf r])
        (accB.map Prod.fst) rs := by
  induction rs generalizing accB with
  | nil => rfl
  | cons r rest ih =>
    rw [List.foldl_cons, List.foldl_cons, ih]
    congr 1
    by_cases hm : ymOf r ∈ accB.map Prod.fst
    · rw [bucketPush_keys_mem _ hm]
      have hc : ((accB.map Prod.fst).contains (ymOf r)) = true :=
        List.elem_iff.mpr hm
      rw [hc]
      rfl
    · rw [bucketPush_keys_new _ hm]
      have hc : ((accB.map Prod.fst).contains (ymOf r)) = false := by
        cases hcc : ((accB.map Prod.fst).contains (ymOf r)) with
        | false => rfl
        | true => exact absurd (List.elem_iff.mp hcc) hm
      rw [hc]
      rfl

theorem contentFold_keys (rs : List PaperRecord) :
    (contentFold rs).map Prod.fst = tocFold rs := by
  unfold contentFold tocFold
  rw [foldl_keys_eq]
  rfl

theorem tocFold_aux_nodup (rs : List PaperRecord) (acc : List Str)
    (h : acc.Nodup) :
    (List.foldl
      (fun acc r => if acc.contains (ymOf r) then acc else acc ++ [ymOf r])
      acc rs).Nodup := by
  induction rs generalizing acc with
  | nil => exact h
  | cons r rest ih =>
    rw [List.foldl_cons]
    cases hc : (acc.contains (ymOf r)) with
    | true =>
      simp only [hc, if_true]
      exact ih acc h
    | false =>
      simp only [hc, Bool.false_eq_true, if_false]
      apply ih
      rw [List.nodup_append]
      refine ⟨h, List.nodup_singleton _, ?_⟩
      intro x hx
      simp only [List.mem_singleton]
      intro hx2
      subst hx2
      rw [Bool.eq_false_iff] at hc
      exact hc (List.elem_iff.mpr hx)

theorem tocFold_aux_mem (rs : List PaperRecord) (acc : List Str) (x : Str) :
    x ∈ (List.foldl
      (fun acc r => if acc.contains (ymOf r) then acc else acc ++ [ymOf r])
      acc rs) ↔ x ∈ acc ∨ ∃ r ∈ rs, ymOf r = x := by
  induction rs generalizing acc with
  | nil => simp
  | cons r rest ih =>
    rw [List.foldl_cons]
    cases hc : (acc.contains (ymOf r)) with
    | true =>
      simp only [hc, if_true]
      rw [ih]
      constructor
      · rintro (hx | hx)
        · exact Or.inl hx
        · obtain ⟨r', h1, h2⟩ := hx
          exact Or.inr ⟨r', List.mem_cons_of_mem _ h1, h2⟩
      · rintro (hx | ⟨r', h1, h2⟩)
        · exact Or.inl hx
        · rcases List.mem_cons.mp h1 with rfl | h1'
          · exact Or.inl (h2 ▸ List.elem_iff.mp hc)
          · exact Or.inr ⟨r', h1', h2⟩
    | false =>
      simp only [hc, Bool.false_eq_true, if_false]
      rw [ih]
      simp only [List.mem_append, List.mem_singleton]
      constructor
      · rintro ((hx | hx) | hx)
        · exact Or.inl hx
        · exact Or.inr ⟨r, List.mem_cons_self _ _, hx.symm⟩
        · obtain ⟨r', h1, h2⟩ := hx
          exact Or.inr ⟨r', List.mem_cons_of_mem _ h1, h2⟩
      · rintro (hx | ⟨r', h1, h2⟩)
        · exact Or.inl (Or.inl hx)
        · rcases List.mem_cons.mp h1 with rfl | h1'
          · exact Or.inl (Or.inr h2.symm)
          · exact Or.inr ⟨r', h1', h2⟩

theorem tocFold_nodup (rs : List PaperRecord) : (tocFold rs).Nodup :=
  tocFold_aux_nodup rs [] List.nodup_nil

theorem tocFold_mem (rs : List PaperRecord) (x : Str) :
    x ∈ tocFold rs ↔ ∃ r ∈ rs, ymOf r = x := by
  unfold tocFold
  rw [tocFold_aux_mem]
  simp

theorem contentFold_section_eq_filter {rs : List PaperRecord}
    {ym : Str} {sec : List PaperRecord} (h : (ym, sec) ∈ contentFold rs) :
    sec = rs.filter (fun r => ymOf r == ym) := by
  have hnd : ((contentFold rs).map Prod.fst).Nodup := by
    rw [contentFold_keys]
    exact tocFold_nodup rs
  have := bucketGet_of_mem hnd h
  rw [contentFold_get] at this
  exact this.symm

/-!
## Claim theorems
-/

/-- C1: for every run, no two records with the same identifier appear in
the same year document after merge: whenever the parsed records of every
existing year document have pairwise distinct identifiers, every merged
per-year list the pass produces has pairwise distinct identifiers (the
fetched records a bucket receives passed the seen-set dedup of lines
158-162, and the merge of lines 204-210 filters by the existing
identifiers). -/
theorem c1_dedup_invariant (dirExists : Bool) (dbFile : Option (List Str))
    (files : Nat → Option Str) (allowed : List Str)
    (fetched : List FetchResult)
    (hdocs : ∀ y s, files y = some s →
      ((load_markdown s).map (fun r => r.short_id)).Nodup)
    {y : Nat} {merged : List PaperRecord}
    (hm : (y, merged) ∈
      (subjectPass dirExists dbFile files allowed fetched).mergedDocs) :
    (merged.map (fun r => r.short_id)).Nodup := by
  obtain ⟨b, hb, heq⟩ := List.mem_map.mp hm
  have hmerged : merged = mergeYear ((files b.1).map load_markdown) b.2 :=
    (congrArg Prod.snd heq).symm
  have hinv := foldl_accept_ids_inv allowed fetched
    ((load_set dirExists dbFile).dbSet, [])
    (by simp [bucketIds, bucketVals]) (by simp [bucketIds, bucketVals])
  have hnd : (bucketIds
      (List.foldl (acceptStep allowed)
        ((load_set dirExists dbFile).dbSet, []) fetched).2).Nodup := hinv.1
  have hb' : (b.1, b.2) ∈
      (List.foldl (acceptStep allowed)
        ((load_set dirExists dbFile).dbSet, []) fetched).2 := hb
  have hbsub := bucket_ids_sublist _ hb'
  have hbnd : (b.2.map (fun r => r.short_id)).Nodup :=
    List.Nodup.sublist hbsub hnd
  rw [hmerged]
  cases hfy : files b.1 with
  | none =>
    simp only [Option.map_none']
    exact mergeYear_none_nodup hbnd
  | some s =>
    simp only [Option.map_some']
    exact mergeYear_some_nodup (hdocs _ _ hfy) hbnd

/-- C1 witness: a concrete pass over one fetched record against an
existing document with one (distinct) record. -/
theorem c1_dedup_invariant_witness :
    (∀ y s, filesW y = some s →
      ((load_markdown s).map (fun r => r.short_id)).Nodup) ∧
    ((2024, mergeYear (some (load_markdown (renderYear 2024 [recW2])))
        [mkRecord fetchW1]) ∈
      (subjectPass true none filesW ["cs.AI".data] [fetchW1]).mergedDocs) ∧
    ((mergeYear (some (load_markdown (renderYear 2024 [recW2])))
        [mkRecord fetchW1]).map (fun r => r.short_id)).Nodup := by
  have hdocs : ∀ y s, filesW y = some s →
      ((load_markdown s).map (fun r => r.short_id)).Nodup := by
    intro y s hs
    obtain rfl : renderYear 2024 [recW2] = s := by
      simpa [filesW] using hs
    decide
  have hmem : (2024, mergeYear (some (load_markdown (renderYear 2024 [recW2])))
        [mkRecord fetchW1]) ∈
      (subjectPass true none filesW ["cs.AI".data] [fetchW1]).mergedDocs := by
    decide
  exact ⟨hdocs, hmem,
    c1_dedup_invariant true none filesW ["cs.AI".data] [fetchW1] hdocs hmem⟩

/-- C2 counterexample: the claim asserts that on the second identical run
every fetched identifier is already in the loaded seen set.  A fetched
record whose categories are disjoint from the allowed set never enters the
seen set on the first run, so on the second run its identifier is not in
the loaded seen set. -/
theorem c2_counterexample :
    fetchCex ∈ [fetchCex] ∧
    (processResults ["cs.AI".data] [] [fetchCex]).1 = [] ∧
    fetchCex.short_id ∉ (processResults ["cs.AI".data] [] [fetchCex]).1 := by
  refine ⟨by decide, by decide, by decide⟩

/-- C2 (amended): running the pass a second time with fetch input identical
to the first run: every fetched identifier that passes the category filter
is already in the loaded SeenSet (the first run's final seen set), so no
per-year bucket receives a record, no year document is written, and the
seen-set file is not rewritten; the seen set is unchanged. -/
theorem c2_idempotence (dirExists : Bool) (dbFile : Option (List Str))
    (files files2 : Nat → Option Str) (allowed : List Str)
    (fetched : List FetchResult) (seen1 : List Str) (second : PassResult)
    (h1 : seen1 = (subjectPass dirExists dbFile files allowed fetched).finalSeen)
    (h2 : second = subjectPass true (some seen1) files2 allowed fetched) :
    (∀ r ∈ fetched, passesCategory r.categories allowed = true →
      r.short_id ∈ second.loadedSeen) ∧
    second.loadedSeen = seen1 ∧ second.buckets = [] ∧
    second.writtenYears = [] ∧ second.mergedDocs = [] ∧
    second.renderedDocs = [] ∧ second.dbWritten = false ∧
    second.persistedSeen = none ∧ second.finalSeen = seen1 := by
  have hloaded : second.loadedSeen = seen1 := by
    rw [h2]; rfl
  have hmem : ∀ r ∈ fetched, passesCategory r.categories allowed = true →
      r.short_id ∈ seen1 := by
    intro r hr hp
    rw [h1]
    exact (foldl_accept_seen_mem allowed fetched _ _).mpr
      (Or.inr ⟨r, hr, hp, rfl⟩)
  have hnoop : List.foldl (acceptStep allowed) (seen1, []) fetched =
      (seen1, ([] : List (Nat × List PaperRecord))) :=
    foldl_accept_no_op allowed fetched (seen1, []) hmem
  have hproc : processResults allowed
      (load_set true (some seen1)).dbSet fetched =
      (seen1, ([] : List (Nat × List PaperRecord))) := hnoop
  refine ⟨?_, hloaded, ?_, ?_, ?_, ?_, ?_, ?_, ?_⟩
  · intro r hr hp
    rw [hloaded]
    exact hmem r hr hp
  · rw [h2]; show (processResults _ _ _).2 = _; rw [hproc]
  · rw [h2]; show ((processResults _ _ _).2.map _) = _; rw [hproc]; rfl
  · rw [h2]; show ((processResults _ _ _).2.map _) = _; rw [hproc]; rfl
  · rw [h2]
    show (((processResults _ _ _).2.map _).map _) = _
    rw [hproc]
    rfl
  · rw [h2]; show (!(processResults _ _ _).2.isEmpty) = _; rw [hproc]; rfl
  · rw [h2]
    show (if (processResults _ _ _).2.isEmpty then _ else _) = _
    rw [hproc]
    rfl
  · rw [h2]; show (processResults _ _ _).1 = _; rw [hproc]

/-- C2 witness: the amended idempotence at a concrete first run with one
accepted record. -/
theorem c2_idempotence_witness :
    ((subjectPass true none (fun _ => none) ["cs.AI".data] [fetchW1]).finalSeen
      = (subjectPass true none (fun _ => none) ["cs.AI".data] [fetchW1]).finalSeen) ∧
    (subjectPass true
      (some ((subjectPass true none (fun _ => none) ["cs.AI".data] [fetchW1]).finalSeen))
      (fun _ => none) ["cs.AI".data] [fetchW1]).buckets = [] := by
  refine ⟨rfl, ?_⟩
  exact (c2_idempotence true none (fun _ => none) (fun _ => none)
    ["cs.AI".data] [fetchW1] _ _ rfl rfl).2.2.1

/-- C4: for every year bucket (which, being present, received at least one
new record) with an existing on-disk document, the pass merges exactly as
lines 202-211 specify: the merged list for that year is produced from the
parsed existing records, it contains every parsed existing record
untouched, and it contains exactly the bucket's new records whose
identifier is not among the existing records' identifiers. -/
theorem c4_merge_characterization (dirExists : Bool)
    (dbFile : Option (List Str)) (files : Nat → Option Str)
    (allowed : List Str) (fetched : List FetchResult)
    {y : Nat} {bucket : List PaperRecord} {s : Str}
    (hb : (y, bucket) ∈
      (subjectPass dirExists dbFile files allowed fetched).buckets)
    (hf : files y = some s) :
    ((y, mergeYear (some (load_markdown s)) bucket) ∈
      (subjectPass dirExists dbFile files allowed fetched).mergedDocs) ∧
    (∀ r ∈ load_markdown s, r ∈ mergeYear (some (load_markdown s)) bucket) ∧
    (∀ r, r ∈ mergeYear (some (load_markdown s)) bucket ↔
      r ∈ load_markdown s ∨
        (r ∈ bucket ∧
          r.short_id ∉ (load_markdown s).map (fun x => x.short_id))) := by
  refine ⟨?_, ?_, ?_⟩
  · apply List.mem_map.mpr
    refine ⟨(y, bucket), hb, ?_⟩
    simp [hf]
  · intro r hr
    exact mem_mergeYear_some.mpr (Or.inl hr)
  · intro r
    exact mem_mergeYear_some

/-- C4 witness: the characterization at a concrete bucket and document. -/
theorem c4_merge_characterization_witness :
    ((2024, [mkRecord fetchW1]) ∈
      (subjectPass true none filesW ["cs.AI".data] [fetchW1]).buckets) ∧
    (filesW 2024 = some (renderYear 2024 [recW2])) ∧
    (∀ r ∈ load_markdown (renderYear 2024 [recW2]),
      r ∈ mergeYear (some (load_markdown (renderYear 2024 [recW2])))
        [mkRecord fetchW1]) := by
  have hb : (2024, [mkRecord fetchW1]) ∈
      (subjectPass true none filesW ["cs.AI".data] [fetchW1]).buckets := by
    decide
  exact ⟨hb, rfl,
    (c4_merge_characterization true none filesW ["cs.AI".data] [fetchW1]
      hb rfl).2.1⟩

/-- C5: the merged per-year list is sorted ascending by the update
timestamp key; ties preserve relative insertion order (the existing
records, then the kept new ones, each in their original order); and within
every rendered year-month section the records appear in non-decreasing
update-timestamp order. -/
theorem c5_ordering :
    (∀ oldDoc fresh, (mergeYear oldDoc fresh).Sorted recLeP) ∧
    (∀ old fresh t,
      (mergeYear (some old) fresh).filter (fun r => r.updated_sorted == t) =
        (old ++ freshKept old fresh).filter
          (fun r => r.updated_sorted == t)) ∧
    (∀ fresh t,
      (mergeYear none fresh).filter (fun r => r.updated_sorted == t) =
        fresh.filter (fun r => r.updated_sorted == t)) ∧
    (∀ oldDoc fresh ym sec,
      (ym, sec) ∈ contentFold (mergeYear oldDoc fresh) → sec.Sorted recLeP) := by
  refine ⟨mergeYear_sorted, ?_, ?_, ?_⟩
  · intro old fresh t
    exact sortRecords_filter_key _ t
  · intro fresh t
    exact sortRecords_filter_key _ t
  · intro oldDoc fresh ym sec hsec
    rw [contentFold_section_eq_filter hsec]
    exact List.Sorted.filter _ (mergeYear_sorted oldDoc fresh)

/-- C5 witness: the section-ordering part at a concrete merged list. -/
theorem c5_ordering_witness :
    (("2024-01".data, [recW2]) ∈ contentFold (mergeYear none [recW1, recW2])) ∧
    ([recW2] : List PaperRecord).Sorted recLeP := by
  have hsec : ("2024-01".data, [recW2]) ∈
      contentFold (mergeYear none [recW1, recW2]) := by
    decide
  exact ⟨hsec, c5_ordering.2.2.2 none [recW1, recW2] _ _ hsec⟩

/-- C6: a fetched record whose category list is disjoint from the
configured subject-category set is discarded before dedup (lines 151-156):
the whole pass behaves exactly as if the record had never been fetched, so
its identifier is never added to the seen set, it is never placed in any
year bucket, and it never appears in any merged or rendered document. -/
theorem c6_category_filter (dirExists : Bool) (dbFile : Option (List Str))
    (files : Nat → Option Str) (allowed : List Str)
    (xs ys : List FetchResult) (r : FetchResult)
    (h : passesCategory r.categories allowed = false) :
    subjectPass dirExists dbFile files allowed (xs ++ r :: ys) =
      subjectPass dirExists dbFile files allowed (xs ++ ys) := by
  unfold subjectPass processResults
  rw [foldl_accept_erase allowed r xs ys _ h]

/-- C6 witness: erasing a concrete category-filtered record. -/
theorem c6_category_filter_witness :
    passesCategory fetchCex.categories ["cs.AI".data] = false ∧
    subjectPass true none filesW ["cs.AI".data] ([] ++ fetchCex :: [fetchW1]) =
      subjectPass true none filesW ["cs.AI".data] ([] ++ [fetchW1]) :=
  ⟨by decide,
    c6_category_filter true none filesW ["cs.AI".data] [] [fetchW1] fetchCex
      (by decide)⟩

/-- C7: the rendered TOC has exactly one entry per distinct year-month
bucket present among the records (no duplicates, membership exactly the
year-months occurring), sorted lexicographically ascending, while the body
sections are keyed in the order the buckets were first encountered while
iterating the record list — an order that for some inputs differs from the
TOC's sorted order. -/
theorem c7_toc_body (results : List PaperRecord) :
    (sortStrs (tocFold results)).Nodup ∧
    (sortStrs (tocFold results)).Sorted strLeP ∧
    (∀ x, x ∈ sortStrs (tocFold results) ↔ ∃ r ∈ results, ymOf r = x) ∧
    (contentFold results).map Prod.fst = tocFold results ∧
    ∃ rs : List PaperRecord,
      (contentFold rs).map Prod.fst ≠ sortStrs (tocFold rs) := by
  refine ⟨?_, sortStrs_sorted _, ?_, contentFold_keys results,
    ⟨[recInc1, recInc2], by decide⟩⟩
  · exact ((sortStrs_perm _).nodup_iff).mpr (tocFold_nodup results)
  · intro x
    rw [(sortStrs_perm _).mem_iff, tocFold_mem]

/-- C8: a pass that finds zero new records performs no file writes: no
year document is written and the seen-set file is not rewritten, and the
seen set is persisted exactly when at least one new record was found (all
year buckets are non-empty, and no bucket exists iff every
category-passing fetched identifier was already in the loaded seen
set). -/
theorem c8_no_writes (dirExists : Bool) (dbFile : Option (List Str))
    (files : Nat → Option Str) (allowed : List Str)
    (fetched : List FetchResult) :
    ((subjectPass dirExists dbFile files allowed fetched).buckets = [] →
      (subjectPass dirExists dbFile files allowed fetched).writtenYears = [] ∧
      (subjectPass dirExists dbFile files allowed fetched).mergedDocs = [] ∧
      (subjectPass dirExists dbFile files allowed fetched).renderedDocs = [] ∧
      (subjectPass dirExists dbFile files allowed fetched).dbWritten = false ∧
      (subjectPass dirExists dbFile files allowed fetched).persistedSeen = none ∧
      (subjectPass dirExists dbFile files allowed fetched).finalSeen =
        (subjectPass dirExists dbFile files allowed fetched).loadedSeen) ∧
    ((subjectPass dirExists dbFile files allowed fetched).dbWritten = true ↔
      (subjectPass dirExists dbFile files allowed fetched).buckets ≠ []) ∧
    ((subjectPass dirExists dbFile files allowed fetched).buckets = [] ↔
      ∀ r ∈ fetched, passesCategory r.categories allowed = true →
        r.short_id ∈
          (subjectPass dirExists dbFile files allowed fetched).loadedSeen) ∧
    (∀ b ∈ (subjectPass dirExists dbFile files allowed fetched).buckets,
      b.2 ≠ []) := by
  refine ⟨?_, ?_, ⟨?_, ?_⟩, ?_⟩
  · intro hb
    replace hb : (processResults allowed
        (load_set dirExists dbFile).dbSet fetched).2 = [] := hb
    refine ⟨?_, ?_, ?_, ?_, ?_, ?_⟩
    · show ((processResults _ _ _).2.map _) = _
      rw [hb]
      rfl
    · show ((processResults _ _ _).2.map _) = _
      rw [hb]
      rfl
    · show (((processResults _ _ _).2.map _).map _) = _
      rw [hb]
      rfl
    · show (!(processResults _ _ _).2.isEmpty) = _
      rw [hb]
      rfl
    · show (if (processResults _ _ _).2.isEmpty then _ else _) = _
      rw [hb]
      rfl
    · exact (foldl_accept_empty_buckets allowed fetched _ hb).1
  · have hgen : ∀ (l : List (Nat × List PaperRecord)),
        (!l.isEmpty) = true ↔ l ≠ [] := by
      intro l
      cases l <;> simp
    exact hgen _
  · intro hb
    exact (foldl_accept_empty_buckets allowed fetched _ hb).2
  · intro hall
    show (processResults _ _ _).2 = []
    have := foldl_accept_no_op allowed fetched
      ((load_set dirExists dbFile).dbSet, []) hall
    rw [show processResults allowed (load_set dirExists dbFile).dbSet fetched =
      List.foldl (acceptStep allowed)
        ((load_set dirExists dbFile).dbSet, []) fetched from rfl, this]
  · exact foldl_accept_entries_ne allowed fetched _ (by simp)

/-- C8 witness: the no-writes conclusion at a concrete pass with no
fetched records. -/
theorem c8_no_writes_witness :
    (subjectPass true (some ["x".data]) filesW ["cs.AI".data] []).buckets = [] ∧
    (subjectPass true (some ["x".data]) filesW ["cs.AI".data] []).dbWritten
      = false := by
  refine ⟨rfl, ?_⟩
  exact ((c8_no_writes true (some ["x".data]) filesW ["cs.AI".data] []).1
    rfl).2.2.2.1

/-- C9: a fetched record that passes the category filter and is absent
from the loaded seen set but already present (by identifier) in the
existing year document does not change the merged document (lines 207-209
skip it), yet its identifier enters the in-memory seen set and the
persisted seen set, which is rewritten: membership in the final seen set
is exactly membership in the loaded set or being a category-passing
fetched identifier. -/
theorem c9_seen_vs_document :
    (∀ (old xs ys : List PaperRecord) (rcd : PaperRecord),
      rcd.short_id ∈ old.map (fun r => r.short_id) →
        mergeYear (some old) (xs ++ rcd :: ys) =
          mergeYear (some old) (xs ++ ys)) ∧
    (∀ (allowed seen0 : List Str) (fetched : List FetchResult) (x : Str),
      x ∈ (processResults allowed seen0 fetched).1 ↔
        x ∈ seen0 ∨ ∃ r ∈ fetched,
          passesCategory r.categories allowed = true ∧ r.short_id = x) ∧
    (∀ (dirExists : Bool) (dbFile : Option (List Str))
      (files : Nat → Option Str) (allowed : List Str)
      (fetched : List FetchResult) (r : FetchResult),
      r ∈ fetched → passesCategory r.categories allowed = true →
      r.short_id ∉
        (subjectPass dirExists dbFile files allowed fetched).loadedSeen →
      (subjectPass dirExists dbFile files allowed fetched).dbWritten = true ∧
      (subjectPass dirExists dbFile files allowed fetched).persistedSeen =
        some (subjectPass dirExists dbFile files allowed fetched).finalSeen ∧
      r.short_id ∈
        (subjectPass dirExists dbFile files allowed fetched).finalSeen) := by
  refine ⟨?_, ?_, ?_⟩
  · intro old xs ys rcd h
    exact mergeYear_erase_present xs ys h
  · intro allowed seen0 fetched x
    exact foldl_accept_seen_mem allowed fetched (seen0, []) x
  · intro dirExists dbFile files allowed fetched r hr hp hnot
    have hne : (processResults allowed
        (load_set dirExists dbFile).dbSet fetched).2 ≠ [] := by
      intro hempty
      exact hnot ((foldl_accept_empty_buckets allowed fetched _ hempty).2
        r hr hp)
    refine ⟨?_, ?_, ?_⟩
    · show (!(processResults _ _ _).2.isEmpty) = true
      cases hbk : (processResults allowed
          (load_set dirExists dbFile).dbSet fetched).2 with
      | nil => exact absurd hbk hne
      | cons b t => rfl
    · show (if (processResults _ _ _).2.isEmpty then _ else _) = _
      cases hbk : (processResults allowed
          (load_set dirExists dbFile).dbSet fetched).2 with
      | nil => exact absurd hbk hne
      | cons b t => rfl
    · exact (foldl_accept_seen_mem allowed fetched _ _).mpr
        (Or.inr ⟨r, hr, hp, rfl⟩)

/-- C9 witness: a concrete record present in the existing document is not
re-appended, while a concrete passing record enters the persisted seen
set. -/
theorem c9_seen_vs_document_witness :
    (recW2.short_id ∈ [recW2].map (fun r => r.short_id)) ∧
    (mergeYear (some [recW2]) ([] ++ recW2 :: []) =
      mergeYear (some [recW2]) ([] ++ [])) ∧
    fetchW1 ∈ [fetchW1] ∧
    passesCategory fetchW1.categories ["cs.AI".data] = true ∧
    fetchW1.short_id ∉
      (subjectPass true none filesW ["cs.AI".data] [fetchW1]).loadedSeen ∧
    (subjectPass true none filesW ["cs.AI".data] [fetchW1]).dbWritten = true := by
  refine ⟨by decide, ?_, by decide, by decide, by decide, ?_⟩
  · exact c9_seen_vs_document.1 [recW2] [] [] recW2 (by decide)
  · exact (c9_seen_vs_document.2.2 true none filesW ["cs.AI".data] [fetchW1]
      fetchW1 (by decide) (by decide) (by decide)).1

/-- C10: loading the seen set with the archive directory absent creates
the directory and returns the empty set — and the directory is created
even when the pass then finds zero new records and writes no files — while
with the directory present but `db.txt` absent it returns the empty set
without creating anything. -/
theorem c10_load_set_behaviour :
    (∀ dbFile, load_set false dbFile = { dbSet := [], dirCreated := true }) ∧
    load_set true none = { dbSet := [], dirCreated := false } ∧
    (∀ l, load_set true (some l) = { dbSet := l, dirCreated := false }) ∧
    (∀ (dbFile : Option (List Str)) (files : Nat → Option Str)
      (allowed : List Str) (fetched : List FetchResult),
      (subjectPass false dbFile files allowed fetched).dirCreated = true ∧
      (subjectPass false dbFile files allowed fetched).loadedSeen = []) ∧
    (∀ (files : Nat → Option Str) (allowed : List Str)
      (fetched : List FetchResult),
      (subjectPass true none files allowed fetched).dirCreated = false ∧
      (subjectPass true none files allowed fetched).loadedSeen = []) := by
  refine ⟨fun _ => rfl, rfl, fun _ => rfl, fun _ _ _ _ => ⟨rfl, rfl⟩,
    fun _ _ _ => ⟨rfl, rfl⟩⟩

/-!
## String toolkit for the round-trip proof
-/

theorem strStarts_iff {p s : Str} :
    strStarts p s = true ↔ ∃ u, s = p ++ u := by
  induction p generalizing s with
  | nil => simp [strStarts]
  | cons c p' ih =>
    cases s with
    | nil =>
      simp [strStarts]
    | cons d s' =>
      simp only [strStarts, Bool.and_eq_true, beq_iff_eq]
      rw [ih]
      constructor
      · rintro ⟨rfl, u, rfl⟩
        exact ⟨u, rfl⟩
      · rintro ⟨u, hu⟩
        obtain ⟨h1, h2⟩ := List.cons.injEq .. ▸ hu
        exact ⟨h1.symm, u, h2⟩

theorem strStarts_self (p u : Str) : strStarts p (p ++ u) = true :=
  strStarts_iff.mpr ⟨u, rfl⟩

theorem strStarts_head_ne {c d : Char} {p s : Str} (h : c ≠ d) :
    strStarts (c :: p) (d :: s) = false := by
  simp [strStarts, h]

theorem strStarts_nil_right {c : Char} {p : Str} :
    strStarts (c :: p) [] = false := rfl

theorem matchSeq_lit_cons {l : Str} {ps : List PatItem} (rest : Str) :
    matchSeq (.lit l :: ps) (l ++ rest) = matchSeq ps rest := by
  rw [matchSeq]
  rw [strStarts_self]
  simp [List.drop_left]

theorem matchSeq_lit_none {l : Str} {ps : List PatItem} {s : Str}
    (h : strStarts l s = false) :
    matchSeq (.lit l :: ps) s = none := by
  rw [matchSeq, h]
  rfl

theorem matchCPats_self_append {cs : List CPat} {u : Str}
    (h : matchCPats cs u = some (u, [])) (w : Str) :
    matchCPats cs (u ++ w) = some (u, w) := by
  induction cs generalizing u with
  | nil =>
    simp only [matchCPats, Option.some.injEq, Prod.mk.injEq] at h
    obtain ⟨h1, h2⟩ := h
    subst h2
    simp [matchCPats]
  | cons p ps ih =>
    cases u with
    | nil => simp [matchCPats] at h
    | cons c u' =>
      simp only [matchCPats] at h ⊢
      cases hc : cmatch p c with
      | false => rw [hc] at h; simp at h
      | true =>
        rw [hc] at h
        simp only [if_true] at h ⊢
        cases hm : matchCPats ps u' with
        | none => rw [hm] at h; simp at h
        | some m =>
          rw [hm] at h
          simp only [Option.map_some', Option.some.injEq, Prod.mk.injEq,
            List.cons.injEq] at h
          obtain ⟨⟨hc1, h1⟩, h2⟩ := h
          have hm' : matchCPats ps u' = some (u', []) := by
            rw [hm]
            cases m
            simp_all
          show Option.map _ (matchCPats ps (u' ++ w)) = _
          rw [ih hm']
          rfl

theorem cIdx_append_cons (c : Char) {A : Str} (B : Str) (h : c ∉ A) :
    cIdx c (A ++ c :: B) = A.length := by
  induction A with
  | nil => simp [cIdx, List.takeWhile]
  | cons a A' ih =>
    have ha : a ≠ c := fun hc => h (hc ▸ List.mem_cons_self _ _)
    have h' : c ∉ A' := fun hc => h (List.mem_cons_of_mem _ hc)
    have hrec := ih h'
    simp only [cIdx] at hrec ⊢
    rw [List.cons_append, List.takeWhile_cons,
      if_pos (show decide (a ≠ c) = true by simp [ha])]
    simp only [List.length_cons]
    rw [hrec]

theorem cIdx_all_ne {c : Char} {s : Str} (h : c ∉ s) : cIdx c s = s.length := by
  induction s with
  | nil => rfl
  | cons a s' ih =>
    have ha : a ≠ c := fun hc => h (hc ▸ List.mem_cons_self _ _)
    have h' : c ∉ s' := fun hc => h (List.mem_cons_of_mem _ hc)
    have hrec := ih h'
    simp only [cIdx] at hrec ⊢
    rw [List.takeWhile_cons,
      if_pos (show decide (a ≠ c) = true by simp [ha])]
    simp only [List.length_cons]
    rw [hrec]

theorem cIdx_of_strStarts {c : Char} {Pfx Q s : Str} (hP : c ∉ Pfx)
    (h : strStarts (Pfx ++ c :: Q) s = true) : cIdx c s = Pfx.length := by
  obtain ⟨u, rfl⟩ := strStarts_iff.mp h
  rw [List.append_assoc]
  exact cIdx_append_cons c _ hP

theorem strStarts_take {p q w : Str} (h : strStarts p (q ++ w) = true)
    (hlen : q.length ≤ p.length) : p.take q.length = q := by
  induction q generalizing p with
  | nil => simp
  | cons c q' ih =>
    cases p with
    | nil => simp at hlen
    | cons a p' =>
      simp only [List.cons_append, strStarts, Bool.and_eq_true,
        beq_iff_eq] at h
      obtain ⟨rfl, h2⟩ := h
      rw [List.length_cons, List.take_succ_cons,
        ih h2 (by simpa using hlen)]

theorem strStarts_of_longer {p q w : Str} (h : strStarts p (q ++ w) = true)
    (hlen : p.length ≤ q.length) : strStarts p q = true := by
  induction p generalizing q with
  | nil => cases q <;> rfl
  | cons a p' ih =>
    cases q with
    | nil => simp at hlen
    | cons c q' =>
      simp only [List.cons_append, strStarts, Bool.and_eq_true,
        beq_iff_eq] at h
      obtain ⟨rfl, h2⟩ := h
      simp [strStarts, ih h2 (by simpa using hlen)]

theorem hasSub_of_strStarts_drop {pat P : Str} {m : Nat}
    (h : strStarts pat (P.drop m) = true) : hasSub pat P = true := by
  induction P generalizing m with
  | nil =>
    simp only [List.drop_nil] at h
    cases pat with
    | nil => rfl
    | cons c p' => exact absurd h (by simp [strStarts])
  | cons c P' ih =>
    cases m with
    | zero =>
      simp only [List.drop_zero] at h
      simp [hasSub, h]
    | succ m' =>
      simp only [List.drop_succ_cons] at h
      simp [hasSub, ih h]

theorem strStarts_getElem {p s : Str} (h : strStarts p s = true) {i : Nat}
    (hi : i < p.length) : s[i]? = p[i]? := by
  obtain ⟨u, rfl⟩ := strStarts_iff.mp h
  rw [List.getElem?_append]
  simp [hi]

theorem descRange_cons {lo n : Nat} (h : lo ≤ n + 1) :
    descRange lo (n + 1) = (n + 1) :: descRange lo n := by
  unfold descRange
  have : n + 1 + 1 - lo = (n + 1 - lo) + 1 := by omega
  rw [this, List.range_succ_eq_map]
  simp only [List.map_cons, Nat.sub_zero, List.map_map]
  congr 1
  apply List.map_congr_left
  intro i _
  simp only [Function.comp_apply]
  omega

theorem findSome?_descRange {β : Type} (f : Nat → Option β) (lo k0 : Nat)
    (v : β) (hf0 : f k0 = some v) :
    ∀ hi, k0 ≤ hi → lo ≤ k0 →
      (∀ k, k0 < k → k ≤ hi → f k = none) →
      (descRange lo hi).findSome? f = some v := by
  intro hi
  induction hi with
  | zero =>
    intro hk0 hlo _
    have hk0' : k0 = 0 := Nat.le_zero.mp hk0
    have hlo' : lo = 0 := Nat.le_zero.mp (hlo.trans hk0)
    subst hk0'
    subst hlo'
    simp [descRange, List.findSome?, hf0]
  | succ n ihn =>
    intro hk0 hlo hfail
    rw [descRange_cons (hlo.trans hk0)]
    rw [List.findSome?_cons]
    by_cases hk : k0 = n + 1
    · subst hk
      rw [hf0]
    · have hlt : k0 ≤ n := by omega
      have hnone : f (n + 1) = none := hfail _ (by omega) (le_refl _)
      rw [hnone]
      exact ihn hlt hlo (fun k h1 h2 => hfail k h1 (by omega))

theorem pickGreedy_eval (cont : Str → Option (List Str × Str)) (cap : Bool)
    (lo : Nat) (s : Str) (k0 : Nat) (res : List Str × Str)
    (hk0 : k0 ≤ cIdx '\n' s) (hlo : lo ≤ k0)
    (hsucc : cont (s.drop k0) = some res)
    (hfail : ∀ k, k0 < k → k ≤ cIdx '\n' s → cont (s.drop k) = none) :
    pickGreedy cont cap lo s =
      some (if cap then s.take k0 :: res.1 else res.1, res.2) := by
  unfold pickGreedy
  exact findSome?_descRange _ lo k0 _ (by rw [hsucc]; rfl) _ hk0 hlo
    (fun k h1 h2 => by rw [hfail k h1 h2]; rfl)

theorem strStarts_single_ne {c : Char} {X : Str} {d : Char} {r : Str}
    (hX : c ∉ X) (hd : d ≠ c) : strStarts [c] (X ++ d :: r) = false := by
  cases X with
  | nil => exact strStarts_head_ne (Ne.symm hd)
  | cons x X' =>
    exact strStarts_head_ne
      (Ne.symm (fun hc => hX (hc ▸ List.mem_cons_self _ _)))

theorem matchCPats_decomp {cs : List CPat} {s : Str} {m : Str × Str}
    (h : matchCPats cs s = some m) : m.1 ++ m.2 = s := by
  induction cs generalizing s m with
  | nil =>
    simp only [matchCPats, Option.some.injEq] at h
    rw [← h]
    rfl
  | cons p ps ih =>
    cases s with
    | nil => simp [matchCPats] at h
    | cons c s' =>
      simp only [matchCPats] at h
      cases hc : cmatch p c with
      | false => rw [hc] at h; simp at h
      | true =>
        rw [hc] at h
        simp only [if_true] at h
        cases hm : matchCPats ps s' with
        | none => rw [hm] at h; simp at h
        | some m' =>
          rw [hm] at h
          simp only [Option.map_some', Option.some.injEq] at h
          subst h
          simpa using ih hm

theorem tsOKB_match {u : Str} (h : tsOKB u = true) :
    matchCPats tsShape u = some (u, []) := by
  unfold tsOKB at h
  cases hm : matchCPats tsShape u with
  | none => rw [hm] at h; simp at h
  | some m =>
    obtain ⟨m1, m2⟩ := m
    rw [hm] at h
    have h2 : m2 = [] := by
      simpa [List.isEmpty_iff] using h
    subst h2
    have h1 : m1 = u := by
      simpa using matchCPats_decomp hm
    subst h1
    rfl

theorem matchSeq_fixedGrp {cs : List CPat} {U : Str}
    (hU : matchCPats cs U = some (U, [])) (ps : List PatItem) (w : Str)
    {res : List Str × Str} (hcont : matchSeq ps w = some res) :
    matchSeq (.fixedGrp cs :: ps) (U ++ w) = some (U :: res.1, res.2) := by
  have hstep : matchSeq (.fixedGrp cs :: ps) (U ++ w) =
      (matchSeq ps w).map (fun r => (U :: r.1, r.2)) := by
    simp only [matchSeq]
    rw [matchCPats_self_append hU w]
  rw [hstep, hcont]
  rfl

theorem pickGreedy_nl (cont : Str → Option (List Str × Str)) (cap : Bool)
    (lo : Nat) (Pfx Q A D : Str) (hPfx : '\n' ∉ Pfx) (hAn : '\n' ∉ A)
    (hlo : lo ≤ A.length) (res : List Str × Str)
    (hsucc : cont ((Pfx ++ '\n' :: Q) ++ D) = some res)
    (hcfail : ∀ s', strStarts (Pfx ++ '\n' :: Q) s' = false → cont s' = none) :
    pickGreedy cont cap lo (A ++ (Pfx ++ '\n' :: Q) ++ D) =
      some (if cap then A :: res.1 else res.1, res.2) := by
  have hshape : A ++ (Pfx ++ '\n' :: Q) ++ D =
      (A ++ Pfx) ++ '\n' :: (Q ++ D) := by
    simp [List.append_assoc]
  have hAP : '\n' ∉ A ++ Pfx := by
    intro hc
    rcases List.mem_append.mp hc with hc | hc
    · exact hAn hc
    · exact hPfx hc
  have hidx : cIdx '\n' (A ++ (Pfx ++ '\n' :: Q) ++ D) =
      A.length + Pfx.length := by
    rw [hshape, cIdx_append_cons _ _ hAP, List.length_append]
  have htake : (A ++ (Pfx ++ '\n' :: Q) ++ D).take A.length = A := by
    rw [List.append_assoc, List.take_left]
  have hdrop0 : (A ++ (Pfx ++ '\n' :: Q) ++ D).drop A.length =
      (Pfx ++ '\n' :: Q) ++ D := by
    rw [List.append_assoc, List.drop_left]
  have heval := pickGreedy_eval cont cap lo
    (A ++ (Pfx ++ '\n' :: Q) ++ D) A.length res
    (by rw [hidx]; omega) hlo
    (by rw [hdrop0]; exact hsucc)
    (by
      intro k hk1 hk2
      rw [hidx] at hk2
      apply hcfail
      cases hs : strStarts (Pfx ++ '\n' :: Q)
          ((A ++ (Pfx ++ '\n' :: Q) ++ D).drop k) with
      | false => rfl
      | true =>
        exfalso
        have hc2 := cIdx_of_strStarts hPfx hs
        have hdropk : (A ++ (Pfx ++ '\n' :: Q) ++ D).drop k =
            (A ++ Pfx).drop k ++ '\n' :: (Q ++ D) := by
          rw [hshape, List.drop_append_of_le_length
            (by rw [List.length_append]; omega)]
        rw [hdropk] at hc2
        have hno : '\n' ∉ (A ++ Pfx).drop k :=
          fun hc => hAP (List.mem_of_mem_drop hc)
        rw [cIdx_append_cons _ _ hno, List.length_drop,
          List.length_append] at hc2
        omega)
  rw [heval, htake]

theorem matchSeq_star_nl {ps : List PatItem} {Pfx Q A D : Str}
    (hPfx : '\n' ∉ Pfx) (hAn : '\n' ∉ A) {res : List Str × Str}
    (hcont : matchSeq ps D = some res) :
    matchSeq (.star :: .lit (Pfx ++ '\n' :: Q) :: ps)
      (A ++ (Pfx ++ '\n' :: Q) ++ D) = some (A :: res.1, res.2) := by
  have := pickGreedy_nl (fun t => matchSeq (.lit (Pfx ++ '\n' :: Q) :: ps) t)
    true 0 Pfx Q A D hPfx hAn (Nat.zero_le _) res
    (by
      show matchSeq (.lit (Pfx ++ '\n' :: Q) :: ps)
        ((Pfx ++ '\n' :: Q) ++ D) = some res
      rw [matchSeq_lit_cons]
      exact hcont)
    (fun s' hs => matchSeq_lit_none hs)
  simpa [matchSeq] using this

theorem matchSeq_plus_nl {ps : List PatItem} {Pfx Q A D : Str}
    (hPfx : '\n' ∉ Pfx) (hAn : '\n' ∉ A) (hA : A ≠ [])
    {res : List Str × Str} (hcont : matchSeq ps D = some res) :
    matchSeq (.plus :: .lit (Pfx ++ '\n' :: Q) :: ps)
      (A ++ (Pfx ++ '\n' :: Q) ++ D) = some (A :: res.1, res.2) := by
  have := pickGreedy_nl (fun t => matchSeq (.lit (Pfx ++ '\n' :: Q) :: ps) t)
    true 1 Pfx Q A D hPfx hAn (List.length_pos.mpr hA) res
    (by
      show matchSeq (.lit (Pfx ++ '\n' :: Q) :: ps)
        ((Pfx ++ '\n' :: Q) ++ D) = some res
      rw [matchSeq_lit_cons]
      exact hcont)
    (fun s' hs => matchSeq_lit_none hs)
  simpa [matchSeq] using this

theorem matchSeq_plus_backtick {ps : List PatItem} {I lineB D : Str}
    (hI : I ≠ []) (hIbq : '`' ∉ I) (hIn : '\n' ∉ I)
    (hlbq : '`' ∉ lineB) (hln : '\n' ∉ lineB) {res : List Str × Str}
    (hcont : matchSeq ps (lineB ++ '\n' :: D) = some res) :
    matchSeq (.plus :: .lit ['`'] :: ps)
      (I ++ '`' :: (lineB ++ '\n' :: D)) = some (I :: res.1, res.2) := by
  have hnoNl : '\n' ∉ I ++ '`' :: lineB := by
    intro hc
    rcases List.mem_append.mp hc with hc | hc
    · exact hIn hc
    · rcases List.mem_cons.mp hc with hc | hc
      · cases hc
      · exact hln hc
  have hidx : cIdx '\n' (I ++ '`' :: (lineB ++ '\n' :: D)) =
      I.length + 1 + lineB.length := by
    have hshape : I ++ '`' :: (lineB ++ '\n' :: D) =
        (I ++ '`' :: lineB) ++ '\n' :: D := by
      simp
    rw [hshape, cIdx_append_cons _ _ hnoNl]
    simp
    omega
  have heval := pickGreedy_eval
    (fun t => matchSeq (.lit ['`'] :: ps) t) true 1
    (I ++ '`' :: (lineB ++ '\n' :: D)) I.length res
    (by rw [hidx]; omega) (List.length_pos.mpr hI)
    (by
      rw [List.drop_left]
      show matchSeq (.lit ['`'] :: ps) (['`'] ++ (lineB ++ '\n' :: D)) =
        some res
      rw [matchSeq_lit_cons]
      exact hcont)
    (by
      intro k hk1 hk2
      rw [hidx] at hk2
      apply matchSeq_lit_none
      have hk1' : I.length + 1 ≤ k := hk1
      have hdropk : (I ++ '`' :: (lineB ++ '\n' :: D)).drop k =
          lineB.drop (k - (I.length + 1)) ++ '\n' :: D := by
        have hsh2 : I ++ '`' :: (lineB ++ '\n' :: D) =
            (I ++ ['`']) ++ (lineB ++ '\n' :: D) := by
          simp
        have hk' : k = (I ++ ['`']).length + (k - (I.length + 1)) := by
          simp only [List.length_append, List.length_cons,
            List.length_nil]
          omega
        rw [hsh2]
        have hstep : (I ++ ['`'] ++ (lineB ++ '\n' :: D)).drop k =
            (lineB ++ '\n' :: D).drop (k - (I.length + 1)) := by
          conv_lhs => rw [hk']
          rw [List.drop_append]
        rw [hstep, List.drop_append_of_le_length (by omega)]
      rw [hdropk]
      exact strStarts_single_ne
        (fun hc => hlbq (List.mem_of_mem_drop hc)) (by decide))
  have htake : (I ++ '`' :: (lineB ++ '\n' :: D)).take I.length = I := by
    rw [List.take_left]
  rw [show matchSeq (.plus :: .lit ['`'] :: ps)
      (I ++ '`' :: (lineB ++ '\n' :: D)) =
      pickGreedy (fun t => matchSeq (.lit ['`'] :: ps) t) true 1
        (I ++ '`' :: (lineB ++ '\n' :: D)) from rfl]
  rw [heval, htake]
  rfl

theorem matchSeq_skipStar_pdf {ps : List PatItem} {A1 P Drest : Str}
    (hA1n : '\n' ∉ A1) (hPn : '\n' ∉ P)
    (hPsub : hasSub " [pdf](".data P = false) {res : List Str × Str}
    (hcont : matchSeq ps (P ++ ')' :: '\n' :: Drest) = some res) :
    matchSeq (.skipStar :: .lit " [pdf](".data :: ps)
      (A1 ++ " [pdf](".data ++ (P ++ ')' :: '\n' :: Drest)) =
      some (res.1, res.2) := by
  set pat7 : Str := " [pdf](".data with hpat7
  set X : Str := P ++ ')' :: '\n' :: Drest with hX
  have hlen7 : pat7.length = 7 := by rw [hpat7]; rfl
  have hshape : A1 ++ pat7 ++ X =
      (A1 ++ pat7 ++ P ++ [')']) ++ '\n' :: Drest := by
    simp [hX]
  have hpfxNl : '\n' ∉ A1 ++ pat7 ++ P ++ [')'] := by
    intro hc
    rcases List.mem_append.mp hc with hc | hc
    · rcases List.mem_append.mp hc with hc | hc
      · rcases List.mem_append.mp hc with hc | hc
        · exact hA1n hc
        · rw [hpat7] at hc
          exact absurd hc (by decide)
      · exact hPn hc
    · exact absurd hc (by decide)
  have hidx : cIdx '\n' (A1 ++ pat7 ++ X) =
      A1.length + 7 + P.length + 1 := by
    rw [hshape, cIdx_append_cons _ _ hpfxNl]
    simp [hlen7]
    omega
  have hborder : ∀ jj, 1 ≤ jj → jj ≤ 6 →
      ¬ (pat7.take (7 - jj) = pat7.drop jj) := by
    intro jj h1 h2
    rw [hpat7]
    interval_cases jj <;> decide
  have heval := pickGreedy_eval
    (fun t => matchSeq (.lit pat7 :: ps) t) false 0
    (A1 ++ pat7 ++ X) A1.length res
    (by rw [hidx]; omega) (Nat.zero_le _)
    (by
      rw [List.append_assoc, List.drop_left]
      show matchSeq (.lit pat7 :: ps) (pat7 ++ X) = some res
      rw [matchSeq_lit_cons, hX]
      exact hcont)
    (by
      intro k hk1 hk2
      rw [hidx] at hk2
      apply matchSeq_lit_none
      have hdropk : (A1 ++ pat7 ++ X).drop k =
          (pat7 ++ X).drop (k - A1.length) := by
        rw [List.append_assoc]
        conv_lhs =>
          rw [show k = A1.length + (k - A1.length) by omega]
        rw [List.drop_append]
      rw [hdropk]
      set j : Nat := k - A1.length with hj
      have hj1 : 1 ≤ j := by omega
      have hj2 : j ≤ 7 + P.length + 1 := by omega
      rcases Nat.lt_or_ge j 7 with hcase | hcase
      · -- inside the literal: no border
        have hdropj : (pat7 ++ X).drop j = pat7.drop j ++ X :=
          List.drop_append_of_le_length (by omega)
        rw [hdropj]
        cases hs : strStarts pat7 (pat7.drop j ++ X) with
        | false => rfl
        | true =>
          exfalso
          have := strStarts_take hs
            (by rw [List.length_drop]; omega)
          rw [List.length_drop, hlen7] at this
          exact hborder j hj1 (by omega) this
      · -- past the literal
        have hdropj : (pat7 ++ X).drop j = X.drop (j - 7) := by
          conv_lhs =>
            rw [show j = pat7.length + (j - 7) by omega]
          rw [List.drop_append]
        rw [hdropj]
        set m : Nat := j - 7 with hm
        rcases Nat.lt_or_ge m P.length with hmlt | hmge
        · -- window starts inside P
          have hdropm : X.drop m = P.drop m ++ ')' :: '\n' :: Drest := by
            rw [hX]
            exact List.drop_append_of_le_length (by omega)
          rw [hdropm]
          cases hs : strStarts pat7 (P.drop m ++ ')' :: '\n' :: Drest) with
          | false => rfl
          | true =>
            exfalso
            rcases Nat.lt_or_ge P.length (m + 7) with hroom | hroom
            case inr =>
              have hlong : strStarts pat7 (P.drop m) = true :=
                strStarts_of_longer hs
                  (by rw [List.length_drop]; omega)
              rw [hasSub_of_strStarts_drop hlong] at hPsub
              cases hPsub
            · have hi : P.length - m < pat7.length := by omega
              have hget := strStarts_getElem hs hi
              have hleft : (P.drop m ++ ')' :: '\n' :: Drest)[P.length - m]? =
                  some ')' := by
                rw [List.getElem?_append]
                rw [List.length_drop]
                simp
              rw [hleft] at hget
              have : ')' ∈ pat7 := List.getElem?_mem hget.symm
              rw [hpat7] at this
              revert this
              decide
        · -- window starts at the ')' or at the newline
          rcases Nat.eq_or_lt_of_le hmge with hmeq | hmlt2
          · have hdropm : X.drop m = ')' :: '\n' :: Drest := by
              rw [hX, ← hmeq]
              exact List.drop_left P _
            rw [hdropm]
            rw [show pat7 = ' ' :: " [pdf](".data.tail from rfl]
            exact strStarts_head_ne (by decide)
          · have hmeq2 : m = P.length + 1 := by omega
            have hdropm : X.drop m = '\n' :: Drest := by
              rw [hX, hmeq2]
              rw [show P ++ ')' :: '\n' :: Drest =
                (P ++ [')']) ++ '\n' :: Drest by simp]
              rw [show P.length + 1 = (P ++ [')']).length by simp]
              exact List.drop_left _ _
            rw [hdropm]
            rw [show pat7 = ' ' :: " [pdf](".data.tail from rfl]
            exact strStarts_head_ne (by decide))
  rw [show matchSeq (.skipStar :: .lit pat7 :: ps) (A1 ++ pat7 ++ X) =
      pickGreedy (fun t => matchSeq (.lit pat7 :: ps) t) false 0
        (A1 ++ pat7 ++ X) from rfl]
  rw [heval]
  rfl

theorem intercalate_cons₂ (sep a : Str) (b : Str) (rest : List Str) :
    List.intercalate sep (a :: b :: rest) =
      a ++ sep ++ List.intercalate sep (b :: rest) := by
  simp [List.intercalate, List.intersperse]

theorem intercalate_single (sep a : Str) : List.intercalate sep [a] = a := by
  simp [List.intercalate, List.intersperse]

theorem mem_joinCS {c : Char} {as0 : List Str} (h : c ∈ joinCS as0) :
    c ∈ (", ".data : Str) ∨ ∃ a ∈ as0, c ∈ a := by
  induction as0 with
  | nil => simp [joinCS, List.intercalate] at h
  | cons a rest ih =>
    cases rest with
    | nil =>
      rw [joinCS, intercalate_single] at h
      exact Or.inr ⟨a, List.mem_cons_self _ _, h⟩
    | cons b rest' =>
      rw [joinCS, intercalate_cons₂] at h
      rcases List.mem_append.mp h with h | h
      · rcases List.mem_append.mp h with h | h
        · exact Or.inr ⟨a, List.mem_cons_self _ _, h⟩
        · exact Or.inl h
      · rcases ih h with h | ⟨a', ha', hc⟩
        · exact Or.inl h
        · exact Or.inr ⟨a', List.mem_cons_of_mem _ ha', hc⟩

theorem joinCS_ne_nil {as0 : List Str} (h0 : as0 ≠ [])
    (h1 : ∀ a ∈ as0, a ≠ []) : joinCS as0 ≠ [] := by
  cases as0 with
  | nil => exact absurd rfl h0
  | cons a rest =>
    cases rest with
    | nil =>
      rw [joinCS, intercalate_single]
      exact h1 a (List.mem_cons_self _ _)
    | cons b rest' =>
      rw [joinCS, intercalate_cons₂]
      intro hc
      have := List.append_eq_nil.mp ((List.append_assoc _ _ _) ▸ hc)
      exact h1 a (List.mem_cons_self _ _) this.1

theorem joinCS_no_nl {as0 : List Str}
    (h : ∀ a ∈ as0, '\n' ∉ a) : '\n' ∉ joinCS as0 := by
  intro hc
  rcases mem_joinCS hc with hc | ⟨a, ha, hc⟩
  · revert hc; decide
  · exact h a ha hc

theorem matchSeq_blockCore (r : PaperRecord)
    (hts : tsOKB r.updated = true)
    (hTn : '\n' ∉ r.title)
    (hJne : joinCS r.authors ≠ []) (hJn : '\n' ∉ joinCS r.authors)
    (hIne : r.short_id ≠ []) (hIn : '\n' ∉ r.short_id)
    (hIbq : '`' ∉ r.short_id)
    (hPne : r.pdf_url ≠ []) (hPn : '\n' ∉ r.pdf_url)
    (hPbq : '`' ∉ r.pdf_url)
    (hPsub : hasSub " [pdf](".data r.pdf_url = false)
    (hSne : r.summary ≠ []) (hSn : '\n' ∉ r.summary) (t : Str) :
    matchSeq thePat (blockCore r ++ t) = some (capsOf r, t) := by
  set U : Str := r.updated
  set T : Str := r.title
  set J : Str := joinCS r.authors
  set I : Str := r.short_id
  set P : Str := r.pdf_url
  set S : Str := r.summary
  -- step 1: summary and closing literal
  have h1 : matchSeq [.plus, .lit ([] ++ '\n' :: "\n</details>".data)]
      (S ++ ([] ++ '\n' :: "\n</details>".data) ++ t) =
      some (S :: ([] : List Str), t) :=
    @matchSeq_plus_nl [] [] "\n</details>".data S t
      (by simp) hSn hSne (([] : List Str), t) rfl
  -- step 2: pdf url and its closing literal
  have h2 : matchSeq [.plus, .lit (")".data ++ '\n' :: "\n> ".data),
        .plus, .lit ([] ++ '\n' :: "\n</details>".data)]
      (P ++ (")".data ++ '\n' :: "\n> ".data) ++
        (S ++ ([] ++ '\n' :: "\n</details>".data) ++ t)) =
      some (P :: S :: ([] : List Str), t) :=
    matchSeq_plus_nl (by decide) hPn hPne h1
  -- step 3: the skipped abs/pdf segment
  have h3 : matchSeq
      [.skipStar, .lit " [pdf](".data,
        .plus, .lit (")".data ++ '\n' :: "\n> ".data),
        .plus, .lit ([] ++ '\n' :: "\n</details>".data)]
      ((" - [abs](http://arxiv.org/abs/".data ++ I ++ ") -".data) ++
        " [pdf](".data ++
        (P ++ ')' :: '\n' ::
          ("\n> ".data ++ (S ++ ([] ++ '\n' :: "\n</details>".data) ++ t)))) =
      some ([P, S], t) := by
    have hA1n : '\n' ∉ " - [abs](http://arxiv.org/abs/".data ++ I ++
        ") -".data := by
      intro hc
      rcases List.mem_append.mp hc with hc | hc
      · rcases List.mem_append.mp hc with hc | hc
        · exact absurd hc (by decide)
        · exact hIn hc
      · exact absurd hc (by decide)
    have := @matchSeq_skipStar_pdf
      [.plus, .lit (")".data ++ '\n' :: "\n> ".data),
        .plus, .lit ([] ++ '\n' :: "\n</details>".data)]
      (" - [abs](http://arxiv.org/abs/".data ++ I ++ ") -".data)
      P
      ("\n> ".data ++ (S ++ ([] ++ '\n' :: "\n</details>".data) ++ t))
      hA1n hPn hPsub
      (P :: S :: ([] : List Str), t)
      (by
        have hform : P ++ ')' :: '\n' ::
            ("\n> ".data ++ (S ++ ([] ++ '\n' :: "\n</details>".data) ++ t)) =
            P ++ (")".data ++ '\n' :: "\n> ".data) ++
              (S ++ ([] ++ '\n' :: "\n</details>".data) ++ t) := by
          simp
        rw [hform]
        exact h2)
    exact this
  -- step 4: the identifier
  have h4 : matchSeq
      [.plus, .lit ['`'],
        .skipStar, .lit " [pdf](".data,
        .plus, .lit (")".data ++ '\n' :: "\n> ".data),
        .plus, .lit ([] ++ '\n' :: "\n</details>".data)]
      (I ++ '`' ::
        ((" - [abs](http://arxiv.org/abs/".data ++ I ++ ") -".data ++
          " [pdf](".data ++ P ++ [')']) ++ '\n' ::
          ("\n> ".data ++ (S ++ ([] ++ '\n' :: "\n</details>".data) ++ t)))) =
      some ([I, P, S], t) := by
    have hlbq : '`' ∉ " - [abs](http://arxiv.org/abs/".data ++ I ++
        ") -".data ++ " [pdf](".data ++ P ++ [')'] := by
      intro hc
      rcases List.mem_append.mp hc with hc | hc
      · rcases List.mem_append.mp hc with hc | hc
        · rcases List.mem_append.mp hc with hc | hc
          · rcases List.mem_append.mp hc with hc | hc
            · rcases List.mem_append.mp hc with hc | hc
              · exact absurd hc (by decide)
              · exact hIbq hc
            · exact absurd hc (by decide)
          · exact absurd hc (by decide)
        · exact hPbq hc
      · exact absurd hc (by decide)
    have hln : '\n' ∉ " - [abs](http://arxiv.org/abs/".data ++ I ++
        ") -".data ++ " [pdf](".data ++ P ++ [')'] := by
      intro hc
      rcases List.mem_append.mp hc with hc | hc
      · rcases List.mem_append.mp hc with hc | hc
        · rcases List.mem_append.mp hc with hc | hc
          · rcases List.mem_append.mp hc with hc | hc
            · rcases List.mem_append.mp hc with hc | hc
              · exact absurd hc (by decide)
              · exact hIn hc
            · exact absurd hc (by decide)
          · exact absurd hc (by decide)
        · exact hPn hc
      · exact absurd hc (by decide)
    have := @matchSeq_plus_backtick
      [.skipStar, .lit " [pdf](".data,
        .plus, .lit (")".data ++ '\n' :: "\n> ".data),
        .plus, .lit ([] ++ '\n' :: "\n</details>".data)]
      I
      (" - [abs](http://arxiv.org/abs/".data ++ I ++ ") -".data ++
        " [pdf](".data ++ P ++ [')'])
      ("\n> ".data ++ (S ++ ([] ++ '\n' :: "\n</details>".data) ++ t))
      hIne hIbq hIn hlbq hln
      ([P, S], t)
      (by
        have hform : (" - [abs](http://arxiv.org/abs/".data ++ I ++
            ") -".data ++ " [pdf](".data ++ P ++ [')']) ++ '\n' ::
            ("\n> ".data ++ (S ++ ([] ++ '\n' :: "\n</details>".data) ++ t)) =
            (" - [abs](http://arxiv.org/abs/".data ++ I ++ ") -".data) ++
              " [pdf](".data ++
              (P ++ ')' :: '\n' ::
                ("\n> ".data ++
                  (S ++ ([] ++ '\n' :: "\n</details>".data) ++ t))) := by
          simp
        rw [hform]
        exact h3)
    exact this
  -- step 5: the authors
  have h5 : matchSeq
      [.plus, .lit ("*".data ++ '\n' :: "\n- `".data),
        .plus, .lit ['`'],
        .skipStar, .lit " [pdf](".data,
        .plus, .lit (")".data ++ '\n' :: "\n> ".data),
        .plus, .lit ([] ++ '\n' :: "\n</details>".data)]
      (J ++ ("*".data ++ '\n' :: "\n- `".data) ++
        (I ++ '`' ::
          ((" - [abs](http://arxiv.org/abs/".data ++ I ++ ") -".data ++
            " [pdf](".data ++ P ++ [')']) ++ '\n' ::
            ("\n> ".data ++
              (S ++ ([] ++ '\n' :: "\n</details>".data) ++ t))))) =
      some ([J, I, P, S], t) :=
    matchSeq_plus_nl (by decide) hJn hJne h4
  -- step 6: the title
  have h6 : matchSeq
      [.star, .lit ("</summary>".data ++ '\n' :: "\n- *".data),
        .plus, .lit ("*".data ++ '\n' :: "\n- `".data),
        .plus, .lit ['`'],
        .skipStar, .lit " [pdf](".data,
        .plus, .lit (")".data ++ '\n' :: "\n> ".data),
        .plus, .lit ([] ++ '\n' :: "\n</details>".data)]
      (T ++ ("</summary>".data ++ '\n' :: "\n- *".data) ++
        (J ++ ("*".data ++ '\n' :: "\n- `".data) ++
          (I ++ '`' ::
            ((" - [abs](http://arxiv.org/abs/".data ++ I ++ ") -".data ++
              " [pdf](".data ++ P ++ [')']) ++ '\n' ::
              ("\n> ".data ++
                (S ++ ([] ++ '\n' :: "\n</details>".data) ++ t)))))) =
      some ([T, J, I, P, S], t) :=
    matchSeq_star_nl (by decide) hTn h5
  -- assemble: timestamp group, leading literals, and the block shape
  have h7 := @matchSeq_fixedGrp tsShape U (tsOKB_match hts)
    [.lit " - ".data,
      .star, .lit ("</summary>".data ++ '\n' :: "\n- *".data),
      .plus, .lit ("*".data ++ '\n' :: "\n- `".data),
      .plus, .lit ['`'],
      .skipStar, .lit " [pdf](".data,
      .plus, .lit (")".data ++ '\n' :: "\n> ".data),
      .plus, .lit ([] ++ '\n' :: "\n</details>".data)]
    (" - ".data ++
      (T ++ ("</summary>".data ++ '\n' :: "\n- *".data) ++
        (J ++ ("*".data ++ '\n' :: "\n- `".data) ++
          (I ++ '`' ::
            ((" - [abs](http://arxiv.org/abs/".data ++ I ++ ") -".data ++
              " [pdf](".data ++ P ++ [')']) ++ '\n' ::
              ("\n> ".data ++
                (S ++ ([] ++ '\n' :: "\n</details>".data) ++ t)))))))
    ([T, J, I, P, S], t)
    (by rw [matchSeq_lit_cons]; exact h6)
  have hpat : thePat = .lit "<summary>".data :: .fixedGrp tsShape ::
      [.lit " - ".data,
        .star, .lit ("</summary>".data ++ '\n' :: "\n- *".data),
        .plus, .lit ("*".data ++ '\n' :: "\n- `".data),
        .plus, .lit ['`'],
        .skipStar, .lit " [pdf](".data,
        .plus, .lit (")".data ++ '\n' :: "\n> ".data),
        .plus, .lit ([] ++ '\n' :: "\n</details>".data)] := by
    unfold thePat
    rfl
  have htext : blockCore r ++ t = "<summary>".data ++
      (U ++
        (" - ".data ++
          (T ++ ("</summary>".data ++ '\n' :: "\n- *".data) ++
            (J ++ ("*".data ++ '\n' :: "\n- `".data) ++
              (I ++ '`' ::
                ((" - [abs](http://arxiv.org/abs/".data ++ I ++ ") -".data ++
                  " [pdf](".data ++ P ++ [')']) ++ '\n' ::
                  ("\n> ".data ++
                    (S ++ ([] ++ '\n' :: "\n</details>".data) ++ t)))))))) := by
    unfold blockCore
    have e1 : "</summary>\n\n- *".data =
        "</summary>".data ++ '\n' :: "\n- *".data := rfl
    have e2 : "*\n\n- `".data = "*".data ++ '\n' :: "\n- `".data := rfl
    have e3 : "` - [abs](http://arxiv.org/abs/".data =
        '`' :: " - [abs](http://arxiv.org/abs/".data := rfl
    have e4 : ") - [pdf](".data = ") -".data ++ " [pdf](".data := rfl
    have e5 : ")\n\n> ".data = ')' :: '\n' :: "\n> ".data := rfl
    have e6 : "\n\n</details>".data = '\n' :: "\n</details>".data := rfl
    rw [e1, e2, e3, e4, e5, e6]
    simp
  rw [hpat, htext, matchSeq_lit_cons, h7]
  rfl

/-!
## Junk-skipping machinery for `findAll`
-/

theorem digitChar_ne_lt : ∀ m : Nat, Nat.digitChar m ≠ '<' := by
  intro m
  match m with
  | 0 | 1 | 2 | 3 | 4 | 5 | 6 | 7 | 8 | 9 | 10 | 11 | 12 | 13 | 14 | 15 =>
    decide
  | n + 16 =>
    have h : Nat.digitChar (n + 16) = '*' := rfl
    rw [h]
    decide

theorem toDigitsCore_no_lt (b : Nat) :
    ∀ (f n : Nat) (acc : Str), '<' ∉ acc →
      '<' ∉ Nat.toDigitsCore b f n acc := by
  intro f
  induction f with
  | zero => intro n acc hacc; exact hacc
  | succ f ih =>
    intro n acc hacc
    show '<' ∉ Nat.toDigitsCore b (f + 1) n acc
    rw [Nat.toDigitsCore]
    have hcons : '<' ∉ (n % b).digitChar :: acc := by
      intro hc
      rcases List.mem_cons.mp hc with hc | hc
      · exact digitChar_ne_lt _ hc.symm
      · exact hacc hc
    by_cases hz : n / b = 0
    · simp only [hz, if_true]
      exact hcons
    · simp only [hz, if_false]
      exact ih _ _ hcons

theorem natDigits_no_lt (n : Nat) : '<' ∉ natDigits n := by
  unfold natDigits Nat.toDigits
  exact toDigitsCore_no_lt 10 (n + 1) n [] (by simp)

theorem mem_intercalate {c : Char} {sep : Str} {L : List Str}
    (h : c ∈ List.intercalate sep L) : c ∈ sep ∨ ∃ a ∈ L, c ∈ a := by
  induction L with
  | nil => simp [List.intercalate] at h
  | cons a rest ih =>
    cases rest with
    | nil =>
      rw [intercalate_single] at h
      exact Or.inr ⟨a, List.mem_cons_self _ _, h⟩
    | cons b rest' =>
      rw [intercalate_cons₂] at h
      rcases List.mem_append.mp h with h | h
      · rcases List.mem_append.mp h with h | h
        · exact Or.inr ⟨a, List.mem_cons_self _ _, h⟩
        · exact Or.inl h
      · rcases ih h with h | ⟨a', ha', hc⟩
        · exact Or.inl h
        · exact Or.inr ⟨a', List.mem_cons_of_mem _ ha', hc⟩

theorem noSumStart_of_no_lt {j : Str} (h : '<' ∉ j) : noSumStart j := by
  intro b hb hne t
  cases b with
  | nil => exact absurd rfl hne
  | cons c b' =>
    have hc : c ∈ j := hb.mem (List.mem_cons_self _ _)
    have hclt : c ≠ '<' := fun hcc => h (hcc ▸ hc)
    rw [show "<summary>".data = '<' :: "summary>".data from rfl]
    exact strStarts_head_ne (Ne.symm hclt)

theorem noSumStart_append {j1 j2 : Str} (h1 : noSumStart j1)
    (h2 : noSumStart j2) : noSumStart (j1 ++ j2) := by
  intro b hb hne t
  obtain ⟨a, ha⟩ := hb
  rcases List.append_eq_append_iff.mp ha with ⟨a', ha1, ha2⟩ | ⟨c', hc1, hc2⟩
  · cases a' with
    | nil =>
      simp only [List.nil_append] at ha2
      exact h2 b (ha2 ▸ List.suffix_refl j2) hne t
    | cons x a'' =>
      subst ha2
      rw [List.append_assoc]
      exact h1 (x :: a'') ⟨a, ha1.symm⟩ (by simp) (j2 ++ t)
  · exact h2 b ⟨c', hc2.symm⟩ hne t

theorem noSumStart_cons {c : Char} {j : Str}
    (h1 : ∀ t, strStarts "<summary>".data (c :: (j ++ t)) = false)
    (h2 : noSumStart j) : noSumStart (c :: j) := by
  intro b hb hne t
  obtain ⟨a, ha⟩ := hb
  cases a with
  | nil =>
    simp only [List.nil_append] at ha
    subst ha
    rw [List.cons_append]
    exact h1 t
  | cons x a' =>
    simp only [List.cons_append, List.cons.injEq] at ha
    exact h2 b ⟨a', ha.2⟩ hne t

theorem noSumStart_details : noSumStart "<details>\n\n".data := by
  rw [show "<details>\n\n".data = '<' :: "details>\n\n".data from rfl]
  apply noSumStart_cons
  · intro t
    rw [show "<summary>".data = '<' :: 's' :: "ummary>".data from rfl]
    rw [show "details>\n\n".data ++ t = 'd' :: ("etails>\n\n".data ++ t)
      from rfl]
    simp [strStarts]
  · exact noSumStart_of_no_lt (by decide)

theorem findAllFrom_succ (ff : Nat) (s : Str) :
    findAllFrom (ff + 1) s =
      match matchSeq thePat s with
      | some m =>
        if m.2.length < s.length then m.1 :: findAllFrom ff m.2
        else
          match s with
          | [] => [m.1]
          | _ :: tail => m.1 :: findAllFrom ff tail
      | none =>
        match s with
        | [] => []
        | _ :: tail => findAllFrom ff tail := rfl

theorem findAllFrom_succ_some_lt (ff : Nat) (s : Str) (caps : List Str)
    (rest : Str) (hm : matchSeq thePat s = some (caps, rest))
    (hlen : rest.length < s.length) :
    findAllFrom (ff + 1) s = caps :: findAllFrom ff rest := by
  rw [findAllFrom_succ, hm]
  simp only [hlen, if_true]

theorem findAllFrom_succ_some_cons_ge (ff : Nat) (c : Char) (tail : Str)
    (caps : List Str) (rest : Str)
    (hm : matchSeq thePat (c :: tail) = some (caps, rest))
    (hlen : ¬ rest.length < (c :: tail).length) :
    findAllFrom (ff + 1) (c :: tail) = caps :: findAllFrom ff tail := by
  rw [findAllFrom_succ, hm]
  simp only [hlen, if_false]

theorem findAllFrom_succ_none_cons (ff : Nat) (c : Char) (tail : Str)
    (hm : matchSeq thePat (c :: tail) = none) :
    findAllFrom (ff + 1) (c :: tail) = findAllFrom ff tail := by
  rw [findAllFrom_succ, hm]

theorem findAllFrom_congr :
    ∀ (n : Nat) (s : Str), s.length ≤ n → ∀ f g, s.length + 1 ≤ f →
      s.length + 1 ≤ g → findAllFrom f s = findAllFrom g s := by
  intro n
  induction n with
  | zero =>
    intro s hs f g hf hg
    have hsnil : s = [] := List.length_eq_zero.mp (Nat.le_zero.mp hs)
    subst hsnil
    obtain ⟨f', rfl⟩ : ∃ f', f = f' + 1 :=
      ⟨f - 1, by omega⟩
    obtain ⟨g', rfl⟩ : ∃ g', g = g' + 1 :=
      ⟨g - 1, by omega⟩
    rfl
  | succ n ih =>
    intro s hs f g hf hg
    obtain ⟨f', rfl⟩ : ∃ f', f = f' + 1 := ⟨f - 1, by omega⟩
    obtain ⟨g', rfl⟩ : ∃ g', g = g' + 1 := ⟨g - 1, by omega⟩
    cases hm : matchSeq thePat s with
    | some m =>
      by_cases hlen : m.2.length < s.length
      · rw [findAllFrom_succ_some_lt f' s m.1 m.2 (by rw [hm]) hlen,
          findAllFrom_succ_some_lt g' s m.1 m.2 (by rw [hm]) hlen]
        have heq : findAllFrom f' m.2 = findAllFrom g' m.2 :=
          ih m.2 (by omega) f' g' (by omega) (by omega)
        rw [heq]
      · cases s with
        | nil =>
          exfalso
          have : matchSeq thePat ([] : Str) = none := rfl
          rw [this] at hm
          exact Option.noConfusion hm
        | cons c tail =>
          rw [findAllFrom_succ_some_cons_ge f' c tail m.1 m.2
              (by rw [hm]) hlen,
            findAllFrom_succ_some_cons_ge g' c tail m.1 m.2
              (by rw [hm]) hlen]
          have htl : tail.length ≤ n := by
            simp only [List.length_cons] at hs
            omega
          have heq : findAllFrom f' tail = findAllFrom g' tail :=
            ih tail htl f' g'
              (by simp only [List.length_cons] at hf; omega)
              (by simp only [List.length_cons] at hg; omega)
          rw [heq]
    | none =>
      cases s with
      | nil => rfl
      | cons c tail =>
        rw [findAllFrom_succ_none_cons f' c tail hm,
          findAllFrom_succ_none_cons g' c tail hm]
        have htl : tail.length ≤ n := by
          simp only [List.length_cons] at hs
          omega
        exact ih tail htl f' g'
          (by simp only [List.length_cons] at hf; omega)
          (by simp only [List.length_cons] at hg; omega)

theorem findAllFrom_eq_findAll {s : Str} {f : Nat} (hf : s.length + 1 ≤ f) :
    findAllFrom f s = findAll s :=
  findAllFrom_congr s.length s (le_refl _) f (s.length + 1) hf (le_refl _)

theorem findAll_cons_of_match {s : Str} {caps : List Str} {rest : Str}
    (h : matchSeq thePat s = some (caps, rest))
    (hlen : rest.length < s.length) :
    findAll s = caps :: findAll rest := by
  show findAllFrom (s.length + 1) s = caps :: findAll rest
  rw [findAllFrom_succ_some_lt s.length s caps rest h hlen]
  rw [findAllFrom_eq_findAll (show rest.length + 1 ≤ s.length by omega)]

theorem findAll_skip_char {c : Char} {tail : Str}
    (h : matchSeq thePat (c :: tail) = none) :
    findAll (c :: tail) = findAll tail := by
  unfold findAll
  rw [findAllFrom_succ_none_cons (c :: tail).length c tail h]
  exact findAllFrom_eq_findAll (by simp)

theorem findAll_junk {j : Str} (hj : noSumStart j) (t : Str) :
    findAll (j ++ t) = findAll t := by
  induction j with
  | nil => rfl
  | cons c j' ih =>
    have hstep : matchSeq thePat (c :: (j' ++ t)) = none := by
      apply matchSeq_lit_none
      exact hj (c :: j') (List.suffix_refl _) (by simp) t
    rw [List.cons_append, findAll_skip_char hstep]
    apply ih
    intro b hb hne t'
    obtain ⟨a, ha⟩ := hb
    exact hj b ⟨c :: a, by rw [List.cons_append, ha]⟩ hne t'

theorem matchCPats_chars {cs : List CPat} {s : Str} {m1 m2 : Str}
    (h : matchCPats cs s = some (m1, m2)) :
    ∀ c ∈ m1, ∃ p ∈ cs, cmatch p c = true := by
  induction cs generalizing s m1 m2 with
  | nil =>
    simp only [matchCPats, Option.some.injEq, Prod.mk.injEq] at h
    rw [← h.1]
    intro c hc
    simp at hc
  | cons p ps ih =>
    cases s with
    | nil => simp [matchCPats] at h
    | cons c0 s' =>
      simp only [matchCPats] at h
      cases hc0 : cmatch p c0 with
      | false => rw [hc0] at h; simp at h
      | true =>
        rw [hc0] at h
        simp only [if_true] at h
        cases hm : matchCPats ps s' with
        | none => rw [hm] at h; simp at h
        | some m' =>
          rw [hm] at h
          simp only [Option.map_some', Option.some.injEq, Prod.mk.injEq] at h
          intro c hc
          rw [← h.1] at hc
          rcases List.mem_cons.mp hc with rfl | hc'
          · exact ⟨p, List.mem_cons_self _ _, hc0⟩
          · obtain ⟨q, hq, hcm⟩ := @ih s' m'.1 m'.2
              (by rw [hm]) c hc'
            exact ⟨q, List.mem_cons_of_mem _ hq, hcm⟩

theorem tsOKB_chars {u : Str} (h : tsOKB u = true) {c : Char} (hc : c ∈ u) :
    c.isDigit = true ∨ c = '-' ∨ c = ' ' ∨ c = ':' := by
  obtain ⟨p, hp, hcm⟩ := matchCPats_chars (tsOKB_match h) c hc
  simp only [tsShape, List.mem_cons, List.not_mem_nil, or_false] at hp
  rcases hp with rfl | rfl | rfl | rfl | rfl | rfl | rfl | rfl | rfl | rfl |
    rfl | rfl | rfl | rfl | rfl | rfl | rfl | rfl | rfl
  all_goals simp only [cmatch, beq_iff_eq] at hcm
  all_goals simp [hcm]

theorem tsOKB_no_lt {u : Str} (h : tsOKB u = true) : '<' ∉ u := by
  intro hc
  rcases tsOKB_chars h hc with h1 | h1 | h1 | h1 <;> simp at h1

theorem tsOKB_no_nl {u : Str} (h : tsOKB u = true) : '\n' ∉ u := by
  intro hc
  rcases tsOKB_chars h hc with h1 | h1 | h1 | h1 <;> simp at h1

theorem mem_dropAfterLastDash {c : Char} {s : Str}
    (h : c ∈ dropAfterLastDash s) : c ∈ s := by
  unfold dropAfterLastDash at h
  cases hd : s.reverse.dropWhile (fun c => c ≠ '-') with
  | nil => rw [hd] at h; exact h
  | cons x rest =>
    rw [hd] at h
    rw [List.mem_reverse] at h
    have h1 : x :: rest <:+ s.reverse := hd ▸ List.dropWhile_suffix _
    have h2 : rest <:+ s.reverse :=
      (List.suffix_cons x rest).trans h1
    rw [← List.mem_reverse]
    exact h2.sublist.mem h

theorem ne_nil_of_isEmpty_false {α : Type} {l : List α}
    (h : l.isEmpty = false) : l ≠ [] := by
  intro hn
  subst hn
  simp at h

theorem not_mem_of_contains_false {c : Char} {l : Str}
    (h : l.contains c = false) : c ∉ l := by
  intro hc
  rw [← List.elem_iff] at hc
  rw [show l.contains c = l.elem c from rfl] at h
  rw [hc] at h
  exact Bool.true_eq_false.mp h

theorem renderableB_unpack {r : PaperRecord} (h : renderableB r = true) :
    tsOKB r.updated = true ∧ tsRangesB r.updated = true ∧
    '\n' ∉ r.title ∧ r.authors ≠ [] ∧
    (∀ a ∈ r.authors, a ≠ [] ∧ '\n' ∉ a ∧ hasSub ", ".data a = false) ∧
    r.summary ≠ [] ∧ '\n' ∉ r.summary ∧
    r.short_id ≠ [] ∧ '\n' ∉ r.short_id ∧ '`' ∉ r.short_id ∧
    r.pdf_url ≠ [] ∧ '\n' ∉ r.pdf_url ∧ '`' ∉ r.pdf_url ∧
    hasSub " [pdf](".data r.pdf_url = false := by
  unfold renderableB at h
  simp only [Bool.and_eq_true, Bool.not_eq_true', List.all_eq_true,
    and_assoc] at h
  obtain ⟨h1, h2, h3, h4, h5, h6, h7, h8, h9, h10, h11, h12, h13, h14⟩ := h
  refine ⟨h1, h2, not_mem_of_contains_false h3, ne_nil_of_isEmpty_false h4,
    ?_, ne_nil_of_isEmpty_false h6, not_mem_of_contains_false h7,
    ne_nil_of_isEmpty_false h8, not_mem_of_contains_false h9,
    not_mem_of_contains_false h10, ne_nil_of_isEmpty_false h11,
    not_mem_of_contains_false h12, not_mem_of_contains_false h13, h14⟩
  intro a ha
  have := h5 a ha
  simp only [Bool.and_eq_true, Bool.not_eq_true'] at this
  exact ⟨ne_nil_of_isEmpty_false this.1,
    not_mem_of_contains_false this.2.1, this.2.2⟩

theorem matchSeq_block_renderable (r : PaperRecord)
    (h : renderableB r = true) (t : Str) :
    matchSeq thePat (blockCore r ++ t) = some (capsOf r, t) := by
  obtain ⟨h1, _, h3, h4, h5, h6, h7, h8, h9, h10, h11, h12, h13, h14⟩ :=
    renderableB_unpack h
  exact matchSeq_blockCore r h1 h3
    (joinCS_ne_nil h4 (fun a ha => (h5 a ha).1))
    (joinCS_no_nl (fun a ha => (h5 a ha).2.1))
    h8 h9 h10 h11 h12 h13 h14 h6 h7 t

theorem blockCore_length_pos (r : PaperRecord) : 0 < (blockCore r).length := by
  rw [show blockCore r = '<' ::
    ("summary>".data ++ r.updated ++ " - ".data ++ r.title ++
      "</summary>\n\n- *".data ++ joinCS r.authors ++ "*\n\n- `".data ++
      r.short_id ++ "` - [abs](http://arxiv.org/abs/".data ++ r.short_id ++
      ") - [pdf](".data ++ r.pdf_url ++ ")\n\n> ".data ++ r.summary ++
      "\n\n</details>".data) from rfl]
  simp

theorem paperText_eq (r : PaperRecord) :
    paperText r = "<details>\n\n".data ++ (blockCore r ++ "\n\n".data) := by
  unfold paperText blockCore joinCS
  rw [show ("<details>\n\n<summary>".data : Str) =
    "<details>\n\n".data ++ "<summary>".data from rfl]
  rw [show ("\n\n</details>\n\n".data : Str) =
    "\n\n</details>".data ++ "\n\n".data from rfl]
  simp [List.append_assoc]

theorem findAll_blocks (rs : List PaperRecord)
    (h : ∀ r ∈ rs, renderableB r = true) (t : Str) :
    findAll ((rs.map paperText).flatten ++ t) =
      rs.map capsOf ++ findAll t := by
  induction rs with
  | nil => simp
  | cons r rest ih =>
    have hr := h r (List.mem_cons_self _ _)
    have hsplit : (List.map paperText (r :: rest)).flatten ++ t =
        "<details>\n\n".data ++ (blockCore r ++ ("\n\n".data ++
          ((rest.map paperText).flatten ++ t))) := by
      rw [List.map_cons, List.flatten_cons, paperText_eq]
      simp [List.append_assoc]
    have hm := matchSeq_block_renderable r hr
      ("\n\n".data ++ ((rest.map paperText).flatten ++ t))
    have hlen : ("\n\n".data ++
        ((rest.map paperText).flatten ++ t)).length <
        (blockCore r ++ ("\n\n".data ++
          ((rest.map paperText).flatten ++ t))).length := by
      simp only [List.length_append]
      have := blockCore_length_pos r
      omega
    rw [hsplit, findAll_junk noSumStart_details,
      findAll_cons_of_match hm hlen,
      findAll_junk (noSumStart_of_no_lt (by decide)),
      ih (fun r' hr' => h r' (List.mem_cons_of_mem _ hr'))]
    rfl

theorem intercalate_sections (secs : List (Str × List PaperRecord)) :
    ∀ X : Str, List.intercalate "\n".data
      (X :: (secs.map (fun sec =>
        ["## ".data ++ sec.1 ++ "\n".data,
          (sec.2.map paperText).flatten])).flatten) =
    X ++ bodyText secs := by
  induction secs with
  | nil =>
    intro X
    simp only [List.map_nil, List.flatten_nil, bodyText]
    rw [intercalate_single]
    simp
  | cons sec rest ih =>
    intro X
    rw [List.map_cons, List.flatten_cons]
    rw [show X :: (["## ".data ++ sec.1 ++ "\n".data,
        (sec.2.map paperText).flatten] ++
        (rest.map (fun sec =>
          ["## ".data ++ sec.1 ++ "\n".data,
            (sec.2.map paperText).flatten])).flatten) =
      X :: ("## ".data ++ sec.1 ++ "\n".data) ::
        ((sec.2.map paperText).flatten ::
          (rest.map (fun sec =>
            ["## ".data ++ sec.1 ++ "\n".data,
              (sec.2.map paperText).flatten])).flatten) from rfl]
    rw [intercalate_cons₂, intercalate_cons₂, ih]
    simp only [bodyText, List.map_cons, List.flatten_cons] at *
    rw [show sectionText sec = "\n".data ++ "## ".data ++ sec.1 ++
      "\n".data ++ "\n".data ++ (sec.2.map paperText).flatten by
        unfold sectionText
        rw [show ("\n## ".data : Str) = "\n".data ++ "## ".data from rfl,
          show ("\n\n".data : Str) = "\n".data ++ "\n".data from rfl]
        simp [List.append_assoc]]
    simp [List.append_assoc]

theorem renderYear_decomp (year : Nat) (rs : List PaperRecord) :
    renderYear year rs = headText year rs ++ bodyText (contentFold rs) := by
  show List.intercalate "\n".data
    (["# ".data ++ natDigits year ++ "\n".data,
      "## TOC\n".data,
      List.intercalate "\n".data
        ((sortStrs (tocFold rs)).map tocLine) ++ "\n".data] ++
     ((contentFold rs).map (fun sec =>
        ["## ".data ++ sec.1 ++ "\n".data,
          (sec.2.map paperText).flatten])).flatten) = _
  rw [show (["# ".data ++ natDigits year ++ "\n".data,
      "## TOC\n".data,
      List.intercalate "\n".data
        ((sortStrs (tocFold rs)).map tocLine) ++ "\n".data] ++
     ((contentFold rs).map (fun sec =>
        ["## ".data ++ sec.1 ++ "\n".data,
          (sec.2.map paperText).flatten])).flatten) =
    ("# ".data ++ natDigits year ++ "\n".data) ::
      "## TOC\n".data ::
      ((List.intercalate "\n".data
          ((sortStrs (tocFold rs)).map tocLine) ++ "\n".data) ::
        ((contentFold rs).map (fun sec =>
          ["## ".data ++ sec.1 ++ "\n".data,
            (sec.2.map paperText).flatten])).flatten) from rfl]
  rw [intercalate_cons₂, intercalate_cons₂, intercalate_sections]
  unfold headText
  rw [show ("\n\n## TOC\n\n".data : Str) =
    "\n".data ++ "\n".data ++ "## TOC\n".data ++ "\n".data from rfl]
  simp [List.append_assoc]

theorem headText_no_lt (year : Nat) (rs : List PaperRecord)
    (h : ∀ r ∈ rs, renderableB r = true) : '<' ∉ headText year rs := by
  intro hc
  unfold headText at hc
  simp only [List.mem_append] at hc
  rcases hc with ((((hc | hc) | hc) | hc) | hc)
  · revert hc; decide
  · exact natDigits_no_lt year hc
  · revert hc; decide
  · rcases mem_intercalate hc with hc | ⟨x, hx, hcx⟩
    · revert hc; decide
    · obtain ⟨tocv, htoc, rfl⟩ := List.mem_map.mp hx
      have htoc2 : tocv ∈ tocFold rs := (sortStrs_perm _).mem_iff.mp htoc
      obtain ⟨r, hr, rfl⟩ := (tocFold_mem rs tocv).mp htoc2
      unfold tocLine at hcx
      simp only [List.mem_append] at hcx
      rcases hcx with (((hcx | hcx) | hcx) | hcx) | hcx
      · revert hcx; decide
      · exact tsOKB_no_lt (renderableB_unpack (h r hr)).1
          (mem_dropAfterLastDash hcx)
      · revert hcx; decide
      · exact tsOKB_no_lt (renderableB_unpack (h r hr)).1
          (mem_dropAfterLastDash hcx)
      · revert hcx; decide
  · revert hc; decide

theorem findAll_bodyText (secs : List (Str × List PaperRecord))
    (h : ∀ sec ∈ secs, '<' ∉ sec.1 ∧ ∀ r ∈ sec.2, renderableB r = true) :
    findAll (bodyText secs) =
      (secs.map (fun sec => sec.2.map capsOf)).flatten := by
  induction secs with
  | nil => rfl
  | cons sec rest ih =>
    have hs := h sec (List.mem_cons_self _ _)
    have hns : noSumStart ("\n## ".data ++ sec.1 ++ "\n\n".data) := by
      apply noSumStart_of_no_lt
      intro hc
      simp only [List.mem_append] at hc
      rcases hc with (hc | hc) | hc
      · revert hc; decide
      · exact hs.1 hc
      · revert hc; decide
    rw [show bodyText (sec :: rest) =
      ("\n## ".data ++ sec.1 ++ "\n\n".data) ++
        ((sec.2.map paperText).flatten ++ bodyText rest) from by
        simp [bodyText, sectionText, List.append_assoc]]
    rw [findAll_junk hns,
      findAll_blocks sec.2 hs.2 (bodyText rest),
      ih (fun s hsr => h s (List.mem_cons_of_mem _ hsr))]
    simp

theorem load_markdown_renderYear (year : Nat) (rs : List PaperRecord)
    (h : ∀ r ∈ rs, renderableB r = true) :
    load_markdown (renderYear year rs) =
      ((contentFold rs).map (fun sec =>
        sec.2.map (fun r => recOfMatch (capsOf r)))).flatten := by
  unfold load_markdown
  rw [renderYear_decomp,
    findAll_junk (noSumStart_of_no_lt (headText_no_lt year rs h))]
  rw [findAll_bodyText]
  · rw [List.map_flatten]
    simp only [List.map_map]
    congr 1
    apply List.map_congr_left
    intro sec _
    simp [Function.comp, List.map_map]
  · rintro ⟨ym, secl⟩ hsec
    have hym : ym ∈ tocFold rs := by
      rw [← contentFold_keys]
      exact List.mem_map_of_mem Prod.fst hsec
    obtain ⟨r, hr, rfl⟩ := (tocFold_mem rs ym).mp hym
    refine ⟨fun hc => tsOKB_no_lt (renderableB_unpack (h r hr)).1
      (mem_dropAfterLastDash hc), ?_⟩
    intro r' hr'
    have hfil := contentFold_section_eq_filter hsec
    rw [hfil] at hr'
    exact h r' (List.mem_of_mem_filter hr')

theorem splitCSGo_no_sep : ∀ (p : Str), hasSub ", ".data p = false →
    ∀ acc, splitCSGo acc p = [acc.reverse ++ p]
  | [], _, acc => by simp [splitCSGo]
  | [c], _, acc => by simp [splitCSGo]
  | c :: c2 :: rest, h, acc => by
    rw [show hasSub ", ".data (c :: c2 :: rest) =
      (strStarts ", ".data (c :: c2 :: rest) ||
        hasSub ", ".data (c2 :: rest)) from rfl,
      Bool.or_eq_false_iff] at h
    have hnc : ¬(c = ',' ∧ c2 = ' ') := by
      rintro ⟨rfl, rfl⟩
      exact absurd h.1 (by simp [strStarts])
    rw [show splitCSGo acc (c :: c2 :: rest) =
      if c = ',' ∧ c2 = ' ' then acc.reverse :: splitCSGo [] rest
      else splitCSGo (c :: acc) (c2 :: rest) from rfl]
    rw [if_neg hnc]
    rw [splitCSGo_no_sep (c2 :: rest) h.2 (c :: acc)]
    simp

theorem splitCSGo_sep : ∀ (p : Str), hasSub ", ".data p = false →
    ∀ acc t, splitCSGo acc (p ++ ',' :: ' ' :: t) =
      (acc.reverse ++ p) :: splitCSGo [] t
  | [], _, acc, t => by
    rw [show ([] : Str) ++ ',' :: ' ' :: t = ',' :: ' ' :: t from rfl]
    rw [show splitCSGo acc (',' :: ' ' :: t) =
      if (',' : Char) = ',' ∧ (' ' : Char) = ' ' then
        acc.reverse :: splitCSGo [] t
      else splitCSGo (',' :: acc) (' ' :: t) from rfl]
    rw [if_pos ⟨rfl, rfl⟩]
    simp
  | [c], _, acc, t => by
    have hnc : ¬(c = ',' ∧ (',' : Char) = ' ') := by
      rintro ⟨rfl, hcc⟩
      simp at hcc
    rw [show ([c] : Str) ++ ',' :: ' ' :: t = c :: ',' :: ' ' :: t from rfl]
    rw [show splitCSGo acc (c :: ',' :: ' ' :: t) =
      if c = ',' ∧ (',' : Char) = ' ' then
        acc.reverse :: splitCSGo [] (' ' :: t)
      else splitCSGo (c :: acc) (',' :: ' ' :: t) from rfl]
    rw [if_neg hnc]
    rw [show (',' :: ' ' :: t : Str) = ([] : Str) ++ ',' :: ' ' :: t from rfl]
    rw [splitCSGo_sep [] (by decide) (c :: acc) t]
    simp
  | c :: c2 :: rest, h, acc, t => by
    rw [show hasSub ", ".data (c :: c2 :: rest) =
      (strStarts ", ".data (c :: c2 :: rest) ||
        hasSub ", ".data (c2 :: rest)) from rfl,
      Bool.or_eq_false_iff] at h
    have hnc : ¬(c = ',' ∧ c2 = ' ') := by
      rintro ⟨rfl, rfl⟩
      exact absurd h.1 (by simp [strStarts])
    rw [show (c :: c2 :: rest) ++ ',' :: ' ' :: t =
      c :: c2 :: (rest ++ ',' :: ' ' :: t) from rfl]
    rw [show splitCSGo acc (c :: c2 :: (rest ++ ',' :: ' ' :: t)) =
      if c = ',' ∧ c2 = ' ' then
        acc.reverse :: splitCSGo [] (rest ++ ',' :: ' ' :: t)
      else splitCSGo (c :: acc) (c2 :: (rest ++ ',' :: ' ' :: t)) from rfl]
    rw [if_neg hnc]
    rw [show (c2 :: (rest ++ ',' :: ' ' :: t) : Str) =
      (c2 :: rest) ++ ',' :: ' ' :: t from rfl]
    rw [splitCSGo_sep (c2 :: rest) h.2 (c :: acc) t]
    simp

theorem splitCS_joinCS (as0 : List Str) (h0 : as0 ≠ [])
    (h : ∀ a ∈ as0, hasSub ", ".data a = false) :
    splitCS (joinCS as0) = as0 := by
  induction as0 with
  | nil => exact absurd rfl h0
  | cons a rest ih =>
    cases rest with
    | nil =>
      rw [joinCS, intercalate_single]
      unfold splitCS
      rw [splitCSGo_no_sep a (h a (List.mem_cons_self _ _)) []]
      simp
    | cons b rest' =>
      rw [joinCS, intercalate_cons₂]
      unfold splitCS
      rw [List.append_assoc a ", ".data
        (List.intercalate ", ".data (b :: rest'))]
      rw [show (", ".data ++ List.intercalate ", ".data (b :: rest') : Str) =
        ',' :: ' ' :: List.intercalate ", ".data (b :: rest') from rfl]
      rw [splitCSGo_sep a (h a (List.mem_cons_self _ _)) []]
      rw [show splitCSGo [] (List.intercalate ", ".data (b :: rest')) =
        splitCS (joinCS (b :: rest')) from rfl]
      rw [ih (List.cons_ne_nil _ _)
        (fun a' ha' => h a' (List.mem_cons_of_mem _ ha'))]
      simp

theorem fields6_recOfMatch_capsOf (r : PaperRecord)
    (h : renderableB r = true) :
    fields6 (recOfMatch (capsOf r)) = fields6 r := by
  obtain ⟨_, _, _, h4, h5, _⟩ := renderableB_unpack h
  show (r.short_id, r.title, splitCS (joinCS r.authors), r.updated,
    r.summary, r.pdf_url) =
    (r.short_id, r.title, r.authors, r.updated, r.summary, r.pdf_url)
  rw [splitCS_joinCS r.authors h4 (fun a ha => (h5 a ha).2.2)]

theorem bucketVals_foldl_perm (rs : List PaperRecord) :
    ∀ bs : List (Str × List PaperRecord),
    List.Perm
      (bucketVals (rs.foldl (fun acc r => bucketPush acc (ymOf r) r) bs))
      (bucketVals bs ++ rs) := by
  induction rs with
  | nil => intro bs; simp
  | cons r rest ih =>
    intro bs
    rw [List.foldl_cons]
    refine (ih (bucketPush bs (ymOf r) r)).trans ?_
    refine (List.Perm.append_right rest (bucketVals_push bs (ymOf r) r)).trans
      ?_
    rw [List.append_assoc]
    exact List.Perm.refl _

theorem contentFold_vals_perm (rs : List PaperRecord) :
    List.Perm (bucketVals (contentFold rs)) rs := by
  have h := bucketVals_foldl_perm rs []
  simpa [contentFold, bucketVals] using h

/-- C3 (amended): feeding the Document Renderer's output back through the
Record Parser recovers the input records as a multiset of their six
compared fields (identifier, title, authors, update timestamp string,
summary, pdf link), independent of ordering, for every list of records
whose fields are renderable: timestamp of the shape and ranges `strptime`
accepts, no newlines in the textual fields, a non-empty author list of
non-empty names free of the separator `", "`, non-empty summary,
identifier and pdf link, no backtick in identifier or pdf link, and no
`" [pdf]("` inside the pdf link.  The original claim, asserted for every
record list, fails: a record with an empty summary renders to a block the
parser's `(.+)` group cannot match, and the record is silently lost
(see the counterexample). -/
theorem c3_round_trip (year : Nat) (rs : List PaperRecord)
    (h : ∀ r ∈ rs, renderableB r = true) :
    List.Perm ((load_markdown (renderYear year rs)).map fields6)
      (rs.map fields6) := by
  rw [load_markdown_renderYear year rs h]
  rw [List.map_flatten]
  simp only [List.map_map]
  have hstep : ((contentFold rs).map (List.map fields6 ∘ fun sec =>
      sec.2.map (fun r => recOfMatch (capsOf r)))) =
      (contentFold rs).map (fun sec => sec.2.map fields6) := by
    apply List.map_congr_left
    rintro ⟨ym, secl⟩ hsec
    simp only [Function.comp, List.map_map]
    apply List.map_congr_left
    intro r' hr'
    have hfil := contentFold_section_eq_filter hsec
    rw [hfil] at hr'
    exact fields6_recOfMatch_capsOf r' (h r' (List.mem_of_mem_filter hr'))
  rw [hstep]
  have hflat : ((contentFold rs).map
      (fun sec => sec.2.map fields6)).flatten =
      (bucketVals (contentFold rs)).map fields6 := by
    unfold bucketVals
    rw [List.map_flatten, List.map_map]
    rfl
  rw [hflat]
  exact (contentFold_vals_perm rs).map fields6

/-- C3 counterexample to the original claim: `recBad` has an empty
summary; its rendered block's summary line `> ` is empty, the pattern's
`(.+)` group cannot match it, so parsing the rendered document yields no
record at all, and the parsed record set (even compared as a multiset of
the six fields, independent of ordering) differs from the input list. -/
theorem c3_counterexample :
    ¬ List.Perm ((load_markdown (renderYear 2024 [recBad])).map fields6)
      ([recBad].map fields6) := by
  decide

/-- Witness: the amended round-trip applied to the concrete one-record
list `[recW1]`, whose fields are renderable. -/
theorem c3_round_trip_witness :
    (∀ r ∈ [recW1], renderableB r = true) ∧
    List.Perm ((load_markdown (renderYear 2024 [recW1])).map fields6)
      ([recW1].map fields6) :=
  ⟨by decide, c3_round_trip 2024 [recW1] (by decide)⟩
